import Mathlib

/-!
Verification development for the `object-archive` repository: a keyed object
store layering an in-memory LRU cache over a single backing file
(`src/include/object_archive.hpp` / `object_archive_impl.hpp`), plus a
distributed facade over MPI (`src/include/object_archive_mpi.hpp` /
`object_archive_mpi_impl.hpp`).

The local archive is embedded shallowly:

* `Key` is instantiated to `Nat`.  The serialization collaborator
  (boost binary archive + zlib) is out of scope per the specification and is
  modelled by a fixed-width 8-byte little-endian integer encoding `serKey`,
  which is deterministic and round-trip injective exactly as the spec
  requires of the collaborator.
* Payloads are byte lists (`List Nat`), the backing file is a byte list.
* `std::unordered_map<Key, ObjectEntry> objects_` is an association list of
  triples `(key, id, entry)`.  The `id` component models the address of the
  map node: `LRU_` is a `std::list<ObjectEntry const*>` of node addresses,
  so pointer identity is semantically relevant and is modelled by giving
  every emplaced node a fresh `id` drawn from `nextId`.  Address reuse by
  the allocator after `erase` is not modelled (it is not guaranteed by C++).
* `size_t` arithmetic wraps modulo `2^64`; the subtractions on
  `buffer_size_` are modelled with `sub64` (the additions in any execution
  considered here stay far below `2^64`; see `add64`).
* Operations that can dereference a freed or absent list node, or whose
  eviction loop cannot terminate, return `none` (`Option`): the C++ executes
  undefined behaviour / an infinite loop there.
-/

namespace OA

/-- `size_t` width: arithmetic on `buffer_size_` wraps modulo `2 ^ 64`. -/
def W : Nat := 18446744073709551616

/-- `size_t` addition (`buffer_size_ += size`). -/
def add64 (a b : Nat) : Nat := (a + b) % W

/-- `size_t` subtraction (`buffer_size_ -= size`); wraps on underflow. -/
def sub64 (a b : Nat) : Nat := (a + (W - b % W)) % W

/-- Little-endian fixed 8-byte encoding of a `size_t`/`u64` value, as written
by `stream_.write((char*)&n, sizeof(size_t))`. -/
def u64le (n : Nat) : List Nat :=
  [n % 256, n / 256 % 256, n / 256 ^ 2 % 256, n / 256 ^ 3 % 256,
   n / 256 ^ 4 % 256, n / 256 ^ 5 % 256, n / 256 ^ 6 % 256, n / 256 ^ 7 % 256]

/-- Decode 8 little-endian bytes (the first 8 elements) into a `u64`. -/
def readU64 (l : List Nat) : Nat :=
  (l.take 8).reverse.foldl (fun acc b => acc * 256 + b % 256) 0

/-- The stand-in for the external serialization collaborator applied to keys
(the spec's `encode(value) → bytes`): deterministic and injective, as the
spec demands.  Modelled as the fixed-width integer encoding. -/
def serKey (k : Nat) : List Nat := u64le k

/-- Inverse of `serKey` (the collaborator's `decode`). -/
def deserKey (l : List Nat) : Nat := readU64 l

/-- `stream_.seekg(i); stream_.read(buf, n)`: the `n` bytes of the file
starting at offset `i`.  A read that runs past the end of the file returns
the available bytes only (the C++ `fstream` read fails there and leaves the
tail of the buffer unspecified). -/
def slice (l : List Nat) (i n : Nat) : List Nat := (l.drop i).take n

/-- `struct ObjectEntry` of `object_archive.hpp` (the `key` back-pointer is
represented by the key component of the containing triple). -/
structure ObjectEntry where
  /-- `std::string data`: resident payload bytes; `[]` means not resident. -/
  data : List Nat
  /-- `size_t index_in_file`: offset of the payload inside the backing file.
  Uninitialized in C++ until first persisted; modelled as `0` at creation
  (it is never read before being set, except for zero-length reads). -/
  indexInFile : Nat
  /-- `size_t size`: payload length in bytes. -/
  size : Nat
  /-- `bool modified`: the in-memory payload has not been written back. -/
  modified : Bool
deriving Repr, DecidableEq

/-- State of one `ObjectArchive`.  `objects` lists `(key, id, entry)` in map
iteration order; `id` models the address of the `unordered_map` node (see
module comment).  `lru` is `LRU_`, front = most recently used, holding node
ids. -/
structure ArchiveState where
  objects : List (Nat × Nat × ObjectEntry)
  lru : List Nat
  mustRebuild : Bool
  maxBufferSize : Nat
  bufferSize : Nat
  file : List Nat
  temporary : Bool
  nextId : Nat
deriving Repr, DecidableEq

/-- `objects_.find(key)`: the first (unique, in well-formed states) triple
with this key, returning its node id and entry. -/
def findTriple (s : ArchiveState) (k : Nat) : Option (Nat × ObjectEntry) :=
  (s.objects.find? (fun t => t.1 == k)).map (fun t => t.2)

/-- `ObjectArchive::is_available`. -/
def isAvailable (s : ArchiveState) (k : Nat) : Bool :=
  (findTriple s k).isSome

/-- `objects_.erase(key)`. -/
def eraseKey (l : List (Nat × Nat × ObjectEntry)) (k : Nat) :
    List (Nat × Nat × ObjectEntry) :=
  l.filter (fun t => t.1 ≠ k)

/-- Replace the entry of the first triple with key `k` (in-place update of
the map node, as done through a live iterator in C++). -/
def replaceKey (l : List (Nat × Nat × ObjectEntry)) (k : Nat) (e : ObjectEntry) :
    List (Nat × Nat × ObjectEntry) :=
  match l with
  | [] => []
  | t :: ts => if t.1 = k then (t.1, t.2.1, e) :: ts else t :: replaceKey ts k e

/-- `objects_.emplace(key, entry)`: inserts only if the key is absent
(returns the existing node untouched otherwise), yielding the node id. -/
def emplace (s : ArchiveState) (k : Nat) (e : ObjectEntry) : Nat × ArchiveState :=
  match findTriple s k with
  | some (id, _) => (id, s)
  | none => (s.nextId,
      { s with objects := s.objects ++ [(k, s.nextId, e)], nextId := s.nextId + 1 })

/-- `ObjectArchive::touch_LRU`: `LRU_.remove(entry); LRU_.push_front(entry)`. -/
def touchLRU (lru : List Nat) (id : Nat) : List Nat :=
  id :: lru.filter (fun x => x ≠ id)

/-- `ObjectArchive::remove`.

Note the translation of `LRU_.remove(&entry)`: `entry` is a local stack
copy (`ObjectEntry entry = it->second;`), so `&entry` is never an element
of `LRU_` (which holds heap addresses of map nodes).  The call therefore
removes nothing, and after `objects_.erase(key)` the erased node's pointer
stays in `LRU_`, dangling.  Accordingly the model leaves `lru` unchanged. -/
def removeOp (s : ArchiveState) (k : Nat) : ArchiveState :=
  match findTriple s k with
  | none => s
  | some (_, e) =>
    { s with
      bufferSize := if e.data ≠ [] then sub64 s.bufferSize e.size else s.bufferSize,
      objects := eraseKey s.objects k,
      mustRebuild := true }

/-- `ObjectArchive::change_key`.  As in `removeOp`, `LRU_.remove(&entry)`
compares against the address of the stack copy and removes nothing; the
re-emplaced node is then unconditionally pushed to the MRU front by
`touch_LRU`, resident or not. -/
def changeKeyOp (s : ArchiveState) (oldK newK : Nat) : ArchiveState :=
  match findTriple s oldK with
  | none => s
  | some (_, e) =>
    let s₁ := { s with objects := eraseKey s.objects oldK }
    let (id₂, s₂) := emplace s₁ newK e
    { s₂ with lru := touchLRU s₂.lru id₂, mustRebuild := true }

/-- The effect of `ObjectArchive::write_back(iterator)` on the node holding
key `k` (callers guarantee presence; on an absent key this is the identity,
mirroring `write_back(Key const&)` returning `false` without effect). -/
def writeBackUpd (s : ArchiveState) (k : Nat) : ArchiveState :=
  match findTriple s k with
  | none => s
  | some (id, e) =>
    let written := e.modified
    let file' := if written then s.file ++ e.data else s.file
    let e₁ : ObjectEntry :=
      if written then { e with indexInFile := s.file.length, modified := false } else e
    let e₂ := { e₁ with data := [] }
    { s with
      objects := replaceKey s.objects k e₂,
      file := file',
      mustRebuild := if written then true else s.mustRebuild,
      bufferSize := sub64 s.bufferSize e.size,
      lru := s.lru.filter (fun x => x ≠ id) }

/-- One test of `ObjectArchive::unload`'s loop condition plus one iteration:
`while (buffer_size_ > desired_size) write_back(*LRU_.back()->key);`.

`none` models undefined behaviour or divergence: `LRU_.back()` on an empty
list, dereferencing a dangling node pointer left behind by `remove` /
`change_key` (the node id is absent from `objects`), or a loop that cannot
make progress within the structural bound (the C++ loop then never
terminates, since `write_back` of a missing key changes nothing). -/
def unloadAux : Nat → ArchiveState → Nat → Option ArchiveState
  | 0, _, _ => none
  | fuel + 1, s, desired =>
    if s.bufferSize ≤ desired then some s
    else
      match s.lru.getLast? with
      | none => none
      | some id =>
        match s.objects.find? (fun t => t.2.1 == id) with
        | none => none
        | some t => unloadAux fuel (writeBackUpd s t.1) desired

/-- `ObjectArchive::unload(desired_size)`.  Each productive iteration
removes at least one element from `lru`, so `lru.length + 1` steps suffice
whenever the loop terminates at all. -/
def unload (s : ArchiveState) (desired : Nat) : Option ArchiveState :=
  unloadAux (s.lru.length + 1) s desired

/-- The tail of `ObjectArchive::insert_raw` after the eviction step:
account the bytes, install the entry (dirty, resident), touch the MRU
front, and write back at once unless the payload is to stay buffered. -/
def insertFinish (s₂ : ArchiveState) (k : Nat) (data : List Nat) (keep : Bool) :
    ArchiveState :=
  let s₃ := { s₂ with bufferSize := add64 s₂.bufferSize data.length }
  let entry : ObjectEntry :=
    { data := data, indexInFile := 0, size := data.length, modified := true }
  let ids := emplace s₃ k entry
  let s₅ := { ids.2 with lru := touchLRU ids.2.lru ids.1 }
  if keep then s₅ else writeBackUpd s₅ k

/-- `ObjectArchive::insert_raw(key, data, keep_in_buffer)`: force
`keep_in_buffer` off for oversized payloads, remove any existing entry for
the key, evict to make room when needed, then install (`insertFinish`). -/
def insertRawOp (s : ArchiveState) (k : Nat) (data : List Nat) (keep : Bool) :
    Option (Nat × ArchiveState) :=
  match (if (if data.length > s.maxBufferSize then false else keep) = true
           ∧ data.length + (removeOp s k).bufferSize > (removeOp s k).maxBufferSize
         then unload (removeOp s k) ((removeOp s k).maxBufferSize - data.length)
         else some (removeOp s k)) with
  | none => none
  | some s₂ =>
    some (data.length,
      insertFinish s₂ k data (if data.length > s.maxBufferSize then false else keep))

/-- The tail of `ObjectArchive::load_raw` for a non-resident entry, after
the eviction step: read the payload from the backing file, account the
bytes, touch the MRU front, and hand the bytes out (writing straight back
when the payload is not to stay buffered). -/
def loadFinish (s' : ArchiveState) (k : Nat) (size : Nat) (keep : Bool) :
    Option (Nat × List Nat × ArchiveState) :=
  -- the C++ holds a live reference to the map node across the eviction
  -- step; re-read the (possibly rewritten) node
  match findTriple s' k with
  | none => none
  | some (id', e') =>
    let buf := slice s'.file e'.indexInFile size
    let e₂ : ObjectEntry := { e' with data := buf, modified := false }
    let s₂ := { s' with objects := replaceKey s'.objects k e₂,
                        bufferSize := add64 s'.bufferSize size }
    let s₃ := { s₂ with lru := touchLRU s₂.lru id' }
    if keep then some (size, e₂.data, s₃)
    else some (size, e₂.data, writeBackUpd s₃ k)

/-- `ObjectArchive::load_raw(key, data, keep_in_buffer)`.  Returns the size,
the caller's (possibly updated) `data` argument, and the new state.  In the
`!keep_in_buffer` branch the C++ either swaps or copies `entry.data` into
`data`; both yield the entry's bytes in `data`, and the subsequent
`write_back` clears the entry's buffer either way. -/
def loadRawOp (s : ArchiveState) (k : Nat) (d : List Nat) (keep : Bool) :
    Option (Nat × List Nat × ArchiveState) :=
  match findTriple s k with
  | none => some (0, d, s)
  | some (id, e) =>
    if e.data = [] then
      match (if (if e.size > s.maxBufferSize then false else keep) = true
               ∧ e.size + s.bufferSize > s.maxBufferSize
             then unload s (s.maxBufferSize - e.size)
             else some s) with
      | none => none
      | some s' => loadFinish s' k e.size (if e.size > s.maxBufferSize then false else keep)
    else
      if (if e.size > s.maxBufferSize then false else keep) = true then
        some (e.size, e.data, { s with lru := touchLRU s.lru id })
      else
        some (e.size, e.data, writeBackUpd { s with lru := touchLRU s.lru id } k)

/-- `ObjectArchive::available_objects()` (keys pushed to the front while
iterating, hence reversed iteration order). -/
def availableObjects (s : ArchiveState) : List Nat :=
  (s.objects.map (fun t => t.1)).reverse

/-- `ObjectArchive::set_buffer_size(size_t)`. -/
def setBufferSize (s : ArchiveState) (m : Nat) : Option ArchiveState :=
  unload { s with maxBufferSize := m } m

/-- One on-disk record as written by `internal_flush`: key, the declared
`data_size` (= `entry.size`), and the payload bytes copied from the old
file.  The copy loop of `internal_flush` transfers exactly `data_size`
bytes in chunks of `max(max_buffer_size_, 1)`, i.e. the slice at
`index_in_file`. -/
def encodeRecord (r : Nat × Nat × List Nat) : List Nat :=
  u64le (serKey r.1).length ++ u64le r.2.1 ++ serKey r.1 ++ r.2.2

/-- The full backing file written by a rebuild: `u64 n_entries` followed by
the records. -/
def fileEncode (recs : List (Nat × Nat × List Nat)) : List Nat :=
  u64le recs.length ++ (recs.map encodeRecord).flatten

/-- The records `internal_flush` would write for the current entries. -/
def recordsOf (s : ArchiveState) : List (Nat × Nat × List Nat) :=
  s.objects.map (fun t => (t.1, t.2.2.size, slice s.file t.2.2.indexInFile t.2.2.size))

/-- `ObjectArchive::internal_flush`: unload everything, then, if the file
must be rebuilt, write a fresh file with one record per entry (the
temporary file is then copied over the original path). -/
def internalFlushOp (s : ArchiveState) : Option ArchiveState := do
  let s₁ ← unload s 0
  if s₁.mustRebuild = false then pure s₁
  else
    let s₂ := { s₁ with mustRebuild := false }
    pure { s₂ with file := fileEncode (recordsOf s₂) }

/-- Parse the records of a backing file from offset `pos`, mirroring the
read loop of `ObjectArchive::init`: for each record read `key_size`,
`data_size` and the key bytes, record the current position as
`index_in_file`, and skip the data.  Duplicate keys follow `emplace`
semantics (first record wins).  `none` models a header pointing past the
end of the file (the C++ reads would fail and fill entries with garbage). -/
def parseEntries : Nat → List Nat → Nat → List (Nat × ObjectEntry) →
    Option (List (Nat × ObjectEntry))
  | 0, _, _, acc => some acc
  | n + 1, file, pos, acc =>
    if pos + 16 ≤ file.length then
      let keySize := readU64 (slice file pos 8)
      let dataSize := readU64 (slice file (pos + 8) 8)
      if pos + 16 + keySize + dataSize ≤ file.length then
        let key := deserKey (slice file (pos + 16) keySize)
        let entry : ObjectEntry :=
          { data := [], indexInFile := pos + 16 + keySize, size := dataSize,
            modified := false }
        let acc' := if (acc.find? (fun t => t.1 == key)).isSome then acc
                    else acc ++ [(key, entry)]
        parseEntries n file (pos + 16 + keySize + dataSize) acc'
      else none
    else none

/-- `ObjectArchive::init(filename, temporary_file)` applied to the archive's
own backing file contents (`fileOpt = none` models an absent/deleted file).
Begins with `internal_flush()`; deletes the old file when the archive was
temporary; then either parses the existing non-empty file or
truncate-creates a fresh one holding a zero entry count. -/
def initOp (s : ArchiveState) (temporary' : Bool) : Option ArchiveState := do
  let s₁ ← internalFlushOp s
  -- `stream_.close(); if (temporary_file_) remove(filename_);`
  let fileOpt : Option (List Nat) := if s₁.temporary then none else some s₁.file
  match fileOpt with
  | some f =>
    if 0 < f.length then do
      let n := readU64 (slice f 0 8)
      let entries ← parseEntries n f 8 []
      let withIds := entries.enum.map (fun p => (p.2.1, s₁.nextId + p.1, p.2.2))
      pure { objects := withIds, lru := [], mustRebuild := s₁.mustRebuild,
             maxBufferSize := s₁.maxBufferSize, bufferSize := 0, file := f,
             temporary := temporary', nextId := s₁.nextId + entries.length }
    else
      pure { objects := [], lru := [], mustRebuild := s₁.mustRebuild,
             maxBufferSize := s₁.maxBufferSize, bufferSize := 0, file := u64le 0,
             temporary := temporary', nextId := s₁.nextId }
  | none =>
    -- reopening the deleted path fails, so the file is truncate-created
    -- with a zero entry count
    pure { objects := [], lru := [], mustRebuild := s₁.mustRebuild,
           maxBufferSize := s₁.maxBufferSize, bufferSize := 0, file := u64le 0,
           temporary := temporary', nextId := s₁.nextId }

/-- `ObjectArchive::flush()`: `internal_flush(); init(filename_);` — note
`init`'s `temporary_file` parameter defaults to `false`. -/
def flushOp (s : ArchiveState) : Option ArchiveState := do
  let s₁ ← internalFlushOp s
  initOp s₁ false

/-- `ObjectArchive::load` (typed): a fresh local string receives the raw
bytes; on a zero return the caller's object is untouched, otherwise it is
rebuilt through the external `decode` collaborator. -/
def loadTypedOp {T : Type} (decode : List Nat → T → T) (s : ArchiveState) (k : Nat)
    (obj : T) (keep : Bool) : Option (Nat × T × ArchiveState) := do
  let (n, str, s') ← loadRawOp s k [] keep
  if n = 0 then pure (0, obj, s')
  else pure (n, decode str obj, s')

/-- The state after default construction (`ObjectArchive()`): a fresh
temporary backing file holding a zero entry count, `max_buffer_size_ = 0`. -/
def initState : ArchiveState :=
  { objects := [], lru := [], mustRebuild := false, maxBufferSize := 0,
    bufferSize := 0, file := u64le 0, temporary := true, nextId := 0 }

/-- A fresh archive after `init(filename, temporary)` on a new file. -/
def freshArchive (temporary : Bool) : ArchiveState :=
  { initState with temporary := temporary }

end OA

namespace OA

/-! ## Invariant predicates from the specification -/

/-- Sum of `entry.size` over resident entries (the spec's
`Σ entry.size` over entries with non-empty resident bytes). -/
def residentSum (s : ArchiveState) : Nat :=
  ((s.objects.filter (fun t => t.2.2.data ≠ [])).map (fun t => t.2.2.size)).sum

/-- The spec's MRU invariant: the MRU order holds exactly the (live) entries
whose resident bytes are non-empty, each at most once. -/
def mruExact (s : ArchiveState) : Prop :=
  (∀ id ∈ s.lru, ∃ t ∈ s.objects, t.2.1 = id ∧ t.2.2.data ≠ []) ∧
  (∀ t ∈ s.objects, t.2.2.data ≠ [] → t.2.1 ∈ s.lru) ∧
  s.lru.Nodup

instance (s : ArchiveState) : Decidable (mruExact s) := by
  unfold mruExact; infer_instance

/-- The triples of `objects` holding key `k` (a singleton in well-formed
states). -/
def keyTriples (s : ArchiveState) (k : Nat) : List (Nat × Nat × ObjectEntry) :=
  s.objects.filter (fun t => t.1 = k)

/-- The payload `v` is faithfully held under key `k`: the key occupies
exactly one map node whose entry either still carries `v` in memory
(dirty), or points at `v` inside the backing file (clean). -/
def GoodAt (s : ArchiveState) (k : Nat) (v : List Nat) : Prop :=
  ∃ id e, keyTriples s k = [(k, id, e)] ∧
    e.size = v.length ∧
    (e.modified = true → e.data = v) ∧
    (e.modified = false →
      slice s.file e.indexInFile e.size = v ∧ e.indexInFile + e.size ≤ s.file.length) ∧
    (e.data ≠ [] → e.data = v)

/-- Every stored copy of key `k` is non-resident. -/
def keyDataEmpty (s : ArchiveState) (k : Nat) : Prop :=
  ∀ t ∈ keyTriples s k, t.2.2.data = []

/-! ## Concrete public-operation sequences used by the counterexamples -/

/-- Public-operation sequence: `init(file); set_buffer_size(10);
insert(0, 1 byte, keep_in_buffer=false); change_key(0, 1)`. -/
def c1Seq : Option ArchiveState := do
  let s₀ ← setBufferSize (freshArchive false) 10
  let (_, s₁) ← insertRawOp s₀ 0 [120] false
  pure (changeKeyOp s₁ 0 1)

/-- The state reached by `c1Seq`. -/
def c1State : ArchiveState := c1Seq.getD initState

/-- The `remove` half of C1: after `set_buffer_size(10);
insert(0, "a", keep_in_buffer=true); remove(0)` the archive holds no entry
at all, yet the MRU order still holds the removed entry's (dangling) node:
`LRU_.remove(&entry)` removed the address of a local copy instead. -/
def c1RemoveState : ArchiveState :=
  ((do
    let s₀ ← setBufferSize (freshArchive false) 10
    let (_, s₁) ← insertRawOp s₀ 0 [97] true
    pure (removeOp s₁ 0) : Option ArchiveState)).getD initState

/-- Public-operation sequence with `max_buffer = 10`:
`insert(0, 1 byte, keep=false); change_key(0, 1); insert(2, 4 bytes);
insert(3, 4 bytes); insert(4, 7 bytes)`.  The last insert's eviction loop
pops the non-resident node that `change_key` left in the MRU order and
`write_back` decrements `buffer_size_` by its size although its bytes were
never counted. -/
def c2Seq : Option ArchiveState := do
  let s₀ ← setBufferSize (freshArchive false) 10
  let (_, s₁) ← insertRawOp s₀ 0 [1] false
  let s₂ := changeKeyOp s₁ 0 1
  let (_, s₃) ← insertRawOp s₂ 2 [9, 9, 9, 9] true
  let (_, s₄) ← insertRawOp s₃ 3 [8, 8, 8, 8] true
  let (_, s₅) ← insertRawOp s₄ 4 [7, 7, 7, 7, 7, 7, 7] true
  pure s₅

/-- The state reached by `c2Seq`. -/
def c2State : ArchiveState := c2Seq.getD initState

/-- Reachable pre-state for the C3/C4 counterexamples:
`set_buffer_size(10); insert(5, 4 bytes); insert(6, 5 bytes)` — a perfectly
well-formed archive with two resident entries. -/
def c3Pre : Option ArchiveState := do
  let s₀ ← setBufferSize (freshArchive false) 10
  let (_, s₁) ← insertRawOp s₀ 5 [1, 1, 1, 1] true
  let (_, s₂) ← insertRawOp s₁ 6 [2, 2, 2, 2, 2] true
  pure s₂

/-- The state reached by `c3Pre`. -/
def c3PreState : ArchiveState := c3Pre.getD initState

end OA

namespace OA

/-! ## Global archive invariant asserted by the specification -/

/-- The well-formedness invariant of an archive state asserted by the
specification (§3, §8): keys and node ids are unique, the MRU order holds
exactly the resident entries once each, `buffer_size_` equals the resident
byte total, and every entry's metadata is consistent with the backing
file.  A fresh archive satisfies it; the C1/C2 bugs mean public operations
do not always preserve it. -/
def Inv (s : ArchiveState) : Prop :=
  (s.objects.map (fun t => t.1)).Nodup ∧
  (s.objects.map (fun t => t.2.1)).Nodup ∧
  s.lru.Nodup ∧
  (∀ id ∈ s.lru, ∃ t ∈ s.objects, t.2.1 = id ∧ t.2.2.data ≠ []) ∧
  (∀ t ∈ s.objects, t.2.2.data ≠ [] → t.2.1 ∈ s.lru) ∧
  s.bufferSize = residentSum s ∧
  residentSum s < W ∧
  (∀ t ∈ s.objects,
    (t.2.2.data ≠ [] → t.2.2.data.length = t.2.2.size) ∧
    (t.2.2.modified = true → t.2.2.data.length = t.2.2.size) ∧
    (t.2.2.modified = false → t.2.2.indexInFile + t.2.2.size ≤ s.file.length))

instance (s : ArchiveState) : Decidable (Inv s) := by
  unfold Inv; infer_instance

end OA

namespace OA

/-!
## Distributed facade

Shallow embedding of `MPIObjectArchive` from
`src/include/object_archive_mpi.hpp` / `object_archive_mpi_impl.hpp` (the
handler-based implementation, which is the one the specification's §4.4-4.6
describe; the legacy `mpi_object_archive_impl.hpp` shares `process_alive`
verbatim but lacks the local `remove` in `process_inserted`).
-/

/-- `MPIObjectArchive::Request`: `{key, counter}`. -/
structure Request where
  key : Nat
  counter : Nat
deriving Repr, DecidableEq

/-- The registry record for one in-flight request: the C++ stores these
facts in `requests_source_`, `requests_waiting_`, `requests_found_`,
`responses_data_valid_` and `responses_data_`, keyed by the request
(through `alive_requests_`). -/
structure ReqState where
  /-- registered source rank; `none` models `boost::mpi::any_source`. -/
  source : Option Nat
  /-- remaining negative responses before giving up (`int`, may go
  negative). -/
  waiting : Int
  /-- rank that answered positively, once any. -/
  found : Option Nat
  /-- the `valid` flag of a received `ResponseData`, once any. -/
  dataValid : Option Bool
  /-- the payload of a valid `ResponseData`. -/
  rdata : List Nat
deriving Repr, DecidableEq

/-- State of one distributed-facade node: its local archive, the liveness
vector (`alive_[self]` is kept `false`), the request counter, and the
in-flight request registry. -/
structure MPIState where
  archive : ArchiveState
  alive : List Bool
  requestCounter : Nat
  registry : List (Request × ReqState)
deriving Repr, DecidableEq

/-- Messages emitted by the modelled handlers. -/
inductive OutMsg where
  | aliveMsg (dst : Nat) (val : Bool)
  | requestMsg (dst : Nat) (req : Request)
  | requestDataMsg (dst : Nat) (req : Request)
deriving Repr, DecidableEq

/-- Modelled from the spec: `mpi_handler.hpp` (the `MPIHandler` message
dispatcher, spec §4.4) is not under `src/`.  Its `run()` probes for pending
messages and dispatches each to the handler registered for its tag; the
pump is modelled as delivering the next pending message per invocation,
which realizes one admissible probe timing.  The three message kinds below
are the ones whose registered handlers touch the liveness vector and the
request registry observed by the requester-side wait loops. -/
inductive NetEvent where
  | aliveEv (src : Nat) (val : Bool)
  | responseEv (src : Nat) (req : Request) (found : Bool)
  | responseDataEv (src : Nat) (req : Request) (valid : Bool) (rdata : List Nat)
deriving Repr, DecidableEq

/-- Instance chained manually: the five-component result type of the
distributed `load_raw` exceeds the default instance-search size. -/
instance : DecidableEq (Nat × List Nat × MPIState × List NetEvent × List OutMsg) := by
  have h : DecidableEq (List Nat × MPIState × List NetEvent × List OutMsg) := by
    infer_instance
  exact @instDecidableEqProd _ _ _ h

/-- `alive_requests_.count(r) > 0`. -/
def registryHas (reg : List (Request × ReqState)) (r : Request) : Bool :=
  (reg.find? (fun p => p.1 == r)).isSome

/-- Look up the state of request `r`. -/
def registryGet (reg : List (Request × ReqState)) (r : Request) : Option ReqState :=
  (reg.find? (fun p => p.1 == r)).map (fun p => p.2)

/-- Update the state of request `r` in place. -/
def registryUpd (reg : List (Request × ReqState)) (r : Request)
    (f : ReqState → ReqState) : List (Request × ReqState) :=
  reg.map (fun p => if p.1 = r then (p.1, f p.2) else p)

/-- Register request `r` (`alive_requests_[request] = &request;
requests_source_[...] = source; requests_waiting_[...] = n_waiting;`),
overwriting any stale registration of the same `{key, counter}` value. -/
def registryPut (reg : List (Request × ReqState)) (r : Request) (st : ReqState) :
    List (Request × ReqState) :=
  if registryHas reg r then registryUpd reg r (fun _ => st) else reg ++ [(r, st)]

/-- Deregister request `r` (the `erase` block at the end of
`get_response`). -/
def registryErase (reg : List (Request × ReqState)) (r : Request) :
    List (Request × ReqState) :=
  reg.filter (fun p => p.1 ≠ r)

/-- `MPIObjectArchive::process_alive` (identical in both implementation
files): update `alive_[source]`; on a dead→alive transition reply
`alive(true)` to the source; on an alive→dead transition decrement the
waiting count of every in-flight request whose registered source is the
dead rank or `any_source`. -/
def processAlive (s : MPIState) (src : Nat) (val : Bool) : MPIState × List OutMsg :=
  let oldAlive := s.alive.getD src false
  let s₁ := { s with alive := s.alive.set src val }
  if val = true ∧ oldAlive = false then
    (s₁, [OutMsg.aliveMsg src true])
  else if oldAlive = true ∧ val = false then
    ({ s₁ with registry := s₁.registry.map (fun p =>
        if p.2.source = some src ∨ p.2.source = none then
          (p.1, { p.2 with waiting := p.2.waiting - 1 }) else p) }, [])
  else (s₁, [])

/-- `MPIObjectArchive::process_response`: locate the request; if present,
decrement its waiting count and, on a positive answer, record the source
as `found`.  Unknown requests are dropped silently. -/
def processResponse (s : MPIState) (src : Nat) (req : Request) (found : Bool) :
    MPIState :=
  if registryHas s.registry req then
    { s with registry := registryUpd s.registry req (fun st =>
        let st₁ := { st with waiting := st.waiting - 1 }
        if found then { st₁ with found := some src } else st₁) }
  else s

/-- `MPIObjectArchive::process_response_data`: locate the request; if
present, record the source as found, store the validity flag and, when
valid, the payload.  Unknown requests are dropped silently. -/
def processResponseData (s : MPIState) (src : Nat) (req : Request) (valid : Bool)
    (rdata : List Nat) : MPIState :=
  if registryHas s.registry req then
    { s with registry := registryUpd s.registry req (fun st =>
        let st₁ := { st with found := some src, dataValid := some valid }
        if valid then { st₁ with rdata := rdata } else st₁) }
  else s

/-- Dispatch one pending message to its handler (see `NetEvent`). -/
def stepEvent (s : MPIState) : NetEvent → MPIState × List OutMsg
  | NetEvent.aliveEv src val => processAlive s src val
  | NetEvent.responseEv src req found => (processResponse s src req found, [])
  | NetEvent.responseDataEv src req valid rdata =>
      (processResponseData s src req valid rdata, [])

/-- The first wait loop of `get_response`:
`while (requests_waiting_[&request] > 0 && requests_found_.count == 0)
handler_.run();` — pump pending messages until the request's waiting count
drops to zero or a source is found.  `none` models the loop spinning
forever because no further message arrives. -/
def waitPhase1 : List NetEvent → MPIState → Request →
    Option (MPIState × List NetEvent × List OutMsg)
  | [], s, req =>
    match registryGet s.registry req with
    | none => none
    | some st =>
      if st.waiting > 0 ∧ st.found = none then none
      else some (s, [], [])
  | ev :: rest, s, req =>
    match registryGet s.registry req with
    | none => none
    | some st =>
      if st.waiting > 0 ∧ st.found = none then
        match waitPhase1 rest (stepEvent s ev).1 req with
        | none => none
        | some (s'', rem, outs) => some (s'', rem, (stepEvent s ev).2 ++ outs)
      else some (s, ev :: rest, [])

/-- The second wait loop of `get_response`:
`while (responses_data_valid_.count(&request) == 0 && alive_[source])
handler_.run();` -/
def waitPhase2 : List NetEvent → MPIState → Request → Nat →
    Option (MPIState × List NetEvent × List OutMsg)
  | [], s, req, foundSrc =>
    match registryGet s.registry req with
    | none => none
    | some st =>
      if st.dataValid = none ∧ s.alive.getD foundSrc false = true then none
      else some (s, [], [])
  | ev :: rest, s, req, foundSrc =>
    match registryGet s.registry req with
    | none => none
    | some st =>
      if st.dataValid = none ∧ s.alive.getD foundSrc false = true then
        match waitPhase2 rest (stepEvent s ev).1 req foundSrc with
        | none => none
        | some (s'', rem, outs) => some (s'', rem, (stepEvent s ev).2 ++ outs)
      else some (s, ev :: rest, [])

/-- `MPIObjectArchive::get_response(source, n_waiting, request)`: register
the request, pump until resolution of the first phase; if some rank
answered positively, send it `request_data` and pump until the data
response arrives or that rank dies; deregister and return the data if a
valid data response arrived.  The returned triple also carries the
unconsumed pending messages and the messages sent. -/
def getResponse (s : MPIState) (source : Option Nat) (nWaiting : Int)
    (req : Request) (events : List NetEvent) :
    Option (Option (List Nat) × MPIState × List NetEvent × List OutMsg) := do
  let st₀ : ReqState :=
    { source := source, waiting := nWaiting, found := none,
      dataValid := none, rdata := [] }
  let s₁ := { s with registry := registryPut s.registry req st₀ }
  let (s₂, rem₁, out₁) ← waitPhase1 events s₁ req
  match (registryGet s₂.registry req).bind (fun st => st.found) with
  | none =>
    pure (none, { s₂ with registry := registryErase s₂.registry req }, rem₁, out₁)
  | some foundSrc => do
    let (s₃, rem₂, out₃) ← waitPhase2 rem₁ s₂ req foundSrc
    let st := registryGet s₃.registry req
    let ret :=
      if (st.bind (fun x => x.dataValid)).getD false = true then
        some ((st.map (fun x => x.rdata)).getD [])
      else none
    pure (ret, { s₃ with registry := registryErase s₃.registry req }, rem₂,
          out₁ ++ [OutMsg.requestDataMsg foundSrc req] ++ out₃)

/-- `broadcast_others(tag, val, check_alive = true)`: send to every rank
currently marked alive (self is marked dead, hence skipped). -/
def broadcastRequest (alive : List Bool) (req : Request) : List OutMsg :=
  ((List.range alive.length).filter (fun i => alive.getD i false)).map
    (fun i => OutMsg.requestMsg i req)

/-- `MPIObjectArchive::load_raw`: local load; on a local miss broadcast a
request to the alive peers, wait with `n_waiting` = number of alive peers,
and if a valid payload comes back insert it locally
(`keep_in_buffer=true`) and re-load.  The initial `handler_.run()` is the
identity on a node with no pending messages; pending messages are modelled
as arriving during the wait loops (`events`). -/
def mpiLoadRaw (s : MPIState) (k : Nat) (d : List Nat) (keep : Bool)
    (events : List NetEvent) :
    Option (Nat × List Nat × MPIState × List NetEvent × List OutMsg) :=
  match loadRawOp s.archive k d keep with
  | none => none
  | some (size, d₁, a₁) =>
    if size = 0 then
      match getResponse { s with archive := a₁, requestCounter := s.requestCounter + 1 }
          none ((s.alive.filter (fun b => b = true)).length : Int)
          { key := k, counter := s.requestCounter } events with
      | none => none
      | some (respData, s₃, rem, outs) =>
        match respData with
        | some bytes =>
          match insertRawOp s₃.archive k bytes true with
          | none => none
          | some (_, a₂) =>
            match loadRawOp a₂ k d₁ keep with
            | none => none
            | some (sz, d₂, a₃) =>
              some (sz, d₂, { s₃ with archive := a₃ }, rem,
                broadcastRequest s.alive { key := k, counter := s.requestCounter } ++ outs)
        | none => some (0, d₁, s₃, rem,
            broadcastRequest s.alive { key := k, counter := s.requestCounter } ++ outs)
    else some (size, d₁, { s with archive := a₁ }, events, [])

/-- `MPIObjectArchive::process_inserted` (handler-based implementation):
always remove the local copy first; then, if the remote-insert filter
accepts the key, send a targeted `request` to the announcing rank and run
`get_response(source, 1, request)`; a valid payload is inserted locally
with `keep_in_buffer=false`. -/
def processInserted (filt : Nat → Bool) (s : MPIState) (src : Nat) (k : Nat)
    (events : List NetEvent) :
    Option (MPIState × List NetEvent × List OutMsg) :=
  -- the local `ObjectArchive<Key>::remove(key)` runs before the filter
  -- check in C++; both branches below therefore start from the removed
  -- archive
  if filt k = true then
    match getResponse
        { s with archive := removeOp s.archive k,
                 requestCounter := s.requestCounter + 1 }
        (some src) 1 { key := k, counter := s.requestCounter } events with
    | none => none
    | some (respData, s₃, rem, outs) =>
      match respData with
      | some bytes =>
        match insertRawOp s₃.archive k bytes false with
        | none => none
        | some (_, a₂) =>
          some ({ s₃ with archive := a₂ }, rem,
            OutMsg.requestMsg src { key := k, counter := s.requestCounter } :: outs)
      | none => some (s₃, rem,
          OutMsg.requestMsg src { key := k, counter := s.requestCounter } :: outs)
  else some ({ s with archive := removeOp s.archive k }, events, [])

end OA

namespace OA

/-! ## Concrete nodes and message traces used by the MPI witnesses -/

/-- A node with an empty local archive and exactly one alive peer
(rank 1); this node is rank 0 (`alive_[self]` stays `false`). -/
def mpiWitnessNode : MPIState :=
  { archive := initState, alive := [false, true], requestCounter := 0, registry := [] }

/-- Trace for the C6 witness: the only alive peer answers negatively. -/
def c6WitnessEvents : List NetEvent :=
  [NetEvent.responseEv 1 { key := 3, counter := 0 } false]

/-- The C6 witness run: a distributed load of the locally-missing key 3. -/
def c6WitnessRun : Option (Nat × List Nat × MPIState × List NetEvent × List OutMsg) :=
  mpiLoadRaw mpiWitnessNode 3 [9] true c6WitnessEvents

/-- The result of the C6 witness run. -/
def c6WitnessRes : Nat × List Nat × MPIState × List NetEvent × List OutMsg :=
  c6WitnessRun.getD (0, [], mpiWitnessNode, [], [])

/-- A node used by the C7 witness: peer 2 alive, two in-flight requests
(one any-source, one bound to rank 2). -/
def c7WitnessNode : MPIState :=
  { archive := initState, alive := [false, false, true], requestCounter := 2,
    registry :=
      [({ key := 5, counter := 0 },
        { source := none, waiting := 2, found := none, dataValid := none, rdata := [] }),
       ({ key := 6, counter := 1 },
        { source := some 2, waiting := 1, found := none, dataValid := none, rdata := [] })] }

/-- Trace for the C8 witness: the announcer (rank 1) answers positively and
then delivers a valid payload `[42]`. -/
def c8WitnessEvents : List NetEvent :=
  [NetEvent.responseEv 1 { key := 3, counter := 0 } true,
   NetEvent.responseDataEv 1 { key := 3, counter := 0 } true [42]]

/-- The C8 witness run: an `inserted(3)` announcement from rank 1 under an
accept-everything filter. -/
def c8WitnessRun : Option (MPIState × List NetEvent × List OutMsg) :=
  processInserted (fun _ => true) mpiWitnessNode 1 3 c8WitnessEvents

/-- The result of the C8 witness run. -/
def c8WitnessRes : MPIState × List NetEvent × List OutMsg :=
  c8WitnessRun.getD (mpiWitnessNode, [], [])

end OA

namespace OA

/-! ## Witness scenarios for the C3/C4 roundtrip laws -/

def wit10State : ArchiveState := (setBufferSize (freshArchive false) 10).getD initState

def c3WitS1 : ArchiveState :=
  ((insertRawOp wit10State 7 [1, 2] true).getD (0, initState)).2

def c3WitRes : Nat × List Nat × ArchiveState :=
  (loadRawOp c3WitS1 7 [] true).getD (0, [], initState)

def c4WitS1 : ArchiveState :=
  ((insertRawOp wit10State 7 [1, 2] true).getD (0, initState)).2

def c4WitS2 : ArchiveState :=
  ((insertRawOp c4WitS1 7 [9, 9, 9] false).getD (0, initState)).2

def c4WitRes : Nat × List Nat × ArchiveState :=
  (loadRawOp c4WitS2 7 [] false).getD (0, [], initState)

end OA

namespace OA

/-! ## Witness scenarios for the flush laws (C5, C9) -/

def c5WitState : ArchiveState :=
  ((insertRawOp (((insertRawOp (freshArchive false) 0 [49] true).getD (0, initState)).2)
    0 [51, 51, 51] true).getD (0, initState)).2

def c5WitFlushed : ArchiveState := (internalFlushOp c5WitState).getD initState

def c9WitState : ArchiveState :=
  ((insertRawOp initState 3 [5] true).getD (0, initState)).2

end OA

namespace OA

/-! ## Theorems: C1 and C2 (code bugs in the MRU bookkeeping) -/

/-- C1.  The claim is false on the code.  After the completed public
sequence `set_buffer_size(10); insert(0, "x", keep=false); change_key(0,1)`
the moved entry is non-resident (its bytes live only in the backing file),
yet `change_key`'s unconditional `touch_LRU` put its node in the MRU order;
and after `set_buffer_size(10); insert(0, "a", keep=true); remove(0)` the
archive holds no entries at all while the MRU order still holds the removed
node (dangling), because `LRU_.remove(&entry)` unlinks the address of a
stack copy, never the stored node.  So the MRU order does not contain
exactly the resident entries. -/
theorem c1_mru_invariant_violated :
    (c1Seq = some c1State ∧
     c1State.lru = [1] ∧
     findTriple c1State 1 =
       some (1, { data := [], indexInFile := 8, size := 1, modified := false }) ∧
     ¬ mruExact c1State) ∧
    (c1RemoveState.objects = [] ∧
     c1RemoveState.lru = [0] ∧
     ¬ mruExact c1RemoveState) := by
  exact ⟨⟨by decide, by decide, by decide, by decide⟩, ⟨by decide, by decide, by decide⟩⟩

/-- C2.  The claim is false on the code: `c2Seq` is a completed sequence of
public operations after which `buffer_size_ = 10` while the resident
entries (sizes 4 and 7) hold 11 bytes, so `buffer_used` is not the sum of
resident sizes — and the resident bytes in fact exceed `max_buffer = 10`
although no single entry is larger than `max_buffer`. -/
theorem c2_buffer_accounting_violated :
    c2Seq = some c2State ∧
    c2State.maxBufferSize = 10 ∧
    c2State.bufferSize = 10 ∧
    residentSum c2State = 11 ∧
    (∀ t ∈ c2State.objects, t.2.2.size ≤ c2State.maxBufferSize) ∧
    c2State.bufferSize ≠ residentSum c2State := by
  refine ⟨by decide, by decide, by decide, by decide, by decide, by decide⟩

/-! ## Theorems: C3 / C4 counterexamples -/

/-- Counterexample to C3 as stated: in the reachable state `c3PreState`,
`insert(5, 7 bytes, keep_in_buffer=true)` does not return the payload size —
its internal `remove(5)` leaves the resident entry's node dangling in the
MRU order (at the back), and the subsequent eviction loop dereferences that
freed node (`*LRU_.back()->key`), which is undefined behaviour: the
operation never completes normally. -/
theorem c3_insert_faults :
    c3Pre = some c3PreState ∧
    isAvailable c3PreState 5 = true ∧
    insertRawOp c3PreState 5 [3, 3, 3, 3, 3, 3, 3] true = none := by
  exact ⟨by decide, by decide, by decide⟩

/-- Counterexample to C4 as stated: from the reachable state `c3PreState`,
the sequence `insert(5, v1); insert(5, v2); load(5)` with `v1` of 7 bytes
does not return `v2` — the first insert already dereferences the freed MRU
node left behind by its internal `remove(5)` and never completes. -/
theorem c4_last_writer_faults :
    c3Pre = some c3PreState ∧
    ((do
      let (_, t₁) ← insertRawOp c3PreState 5 [3, 3, 3, 3, 3, 3, 3] true
      let (_, t₂) ← insertRawOp t₁ 5 [9] true
      loadRawOp t₂ 5 [] true : Option (Nat × List Nat × ArchiveState))) = none := by
  exact ⟨by decide, by decide⟩

/-! ## Theorem: C10 -/

/-- C10.  For a key not present in the archive, `load_raw` returns 0 and
leaves both the caller's byte buffer and the entire archive state
(entries, MRU order, buffer accounting, rebuild flag) untouched, and the
typed `load` wrapper likewise returns 0 without touching the caller's
object. -/
theorem c10_load_missing_key_noop {T : Type} (decode : List Nat → T → T)
    (s : ArchiveState) (k : Nat) (d : List Nat) (keep : Bool) (obj : T)
    (h : isAvailable s k = false) :
    loadRawOp s k d keep = some (0, d, s) ∧
    loadTypedOp decode s k obj keep = some (0, obj, s) := by
  have hf : findTriple s k = none := by
    unfold isAvailable at h
    exact Option.not_isSome_iff_eq_none.mp (by simp [h])
  constructor
  · simp [loadRawOp, hf]
  · simp [loadTypedOp, loadRawOp, hf]

/-- Witness for C10 at a concrete input: key 3 is absent from the fresh
archive; loading it returns 0 and changes nothing. -/
theorem c10_load_missing_key_noop_witness :
    isAvailable initState 3 = false ∧
    loadRawOp initState 3 [7] true = some (0, [7], initState) ∧
    loadTypedOp (fun l n => n + l.length) initState 3 (5 : Nat) true =
      some (0, 5, initState) := by
  refine ⟨by decide, ?_, ?_⟩
  · exact (c10_load_missing_key_noop (fun l n => n + l.length) initState 3 [7] true 5
      (by decide)).1
  · exact (c10_load_missing_key_noop (fun l n => n + l.length) initState 3 [7] true 5
      (by decide)).2

end OA

namespace OA

/-! ## Theorems: C7 (`process_alive`) -/

/-- C7.  `process_alive` characterized by transition kind: on a dead→alive
transition the receiver replies `alive(true)` to the source and leaves the
request registry untouched; on an alive→dead transition it sends nothing
and decrements the waiting count of exactly the in-flight requests whose
registered source is the dead rank or any-source; when the stored liveness
value is unchanged it neither replies nor touches the registry. -/
theorem c7_process_alive (s : MPIState) (src : Nat) (val : Bool) :
    (s.alive.getD src false = false → val = true →
      processAlive s src val =
        ({ s with alive := s.alive.set src true }, [OutMsg.aliveMsg src true])) ∧
    (s.alive.getD src false = true → val = false →
      (processAlive s src val).2 = [] ∧
      (processAlive s src val).1.alive = s.alive.set src false ∧
      (processAlive s src val).1.registry =
        s.registry.map (fun p =>
          if p.2.source = some src ∨ p.2.source = none then
            (p.1, { p.2 with waiting := p.2.waiting - 1 }) else p) ∧
      (∀ p ∈ s.registry, (p.2.source = some src ∨ p.2.source = none →
          (p.1, { p.2 with waiting := p.2.waiting - 1 }) ∈
            (processAlive s src val).1.registry) ∧
        (¬ (p.2.source = some src ∨ p.2.source = none) →
          p ∈ (processAlive s src val).1.registry))) ∧
    (val = s.alive.getD src false →
      processAlive s src val = ({ s with alive := s.alive.set src val }, [])) := by
  refine ⟨?_, ?_, ?_⟩
  · intro h₀ h₁
    subst h₁
    rw [List.getD_eq_getElem?_getD] at h₀
    simp [processAlive, h₀]
  · intro h₀ h₁
    subst h₁
    rw [List.getD_eq_getElem?_getD] at h₀
    refine ⟨?_, ?_, ?_, ?_⟩
    all_goals simp [processAlive, h₀]
    intro p hp hmem
    constructor
    · intro hc
      exact ⟨p, hp, hmem, by simp [hc]⟩
    · intro hc₁ hc₂
      exact ⟨p, hp, hmem, by simp [hc₁, hc₂]⟩
  · intro h₀
    subst h₀
    cases hb : s.alive.getD src false <;>
      rw [List.getD_eq_getElem?_getD] at hb <;> simp [processAlive, hb]

/-- Witness for C7 at concrete inputs (`c7WitnessNode`), exercising all
three transition kinds. -/
theorem c7_process_alive_witness :
    (processAlive c7WitnessNode 1 true =
      ({ c7WitnessNode with alive := c7WitnessNode.alive.set 1 true },
       [OutMsg.aliveMsg 1 true])) ∧
    ((processAlive c7WitnessNode 2 false).2 = [] ∧
     (processAlive c7WitnessNode 2 false).1.registry =
       c7WitnessNode.registry.map (fun p =>
         if p.2.source = some 2 ∨ p.2.source = none then
           (p.1, { p.2 with waiting := p.2.waiting - 1 }) else p)) ∧
    (processAlive c7WitnessNode 2 true =
      ({ c7WitnessNode with alive := c7WitnessNode.alive.set 2 true }, [])) := by
  refine ⟨?_, ⟨?_, ?_⟩, ?_⟩
  · exact (c7_process_alive c7WitnessNode 1 true).1 (by decide) rfl
  · exact ((c7_process_alive c7WitnessNode 2 false).2.1 (by decide) rfl).1
  · exact ((c7_process_alive c7WitnessNode 2 false).2.1 (by decide) rfl).2.2.1
  · exact (c7_process_alive c7WitnessNode 2 true).2.2 (by decide)

end OA

namespace OA

/-! ## Pump lemmas for the remote-lookup protocol (C6 / C8) -/

end OA
namespace OA

theorem processAlive_archive (s : MPIState) (src : Nat) (val : Bool) :
    (processAlive s src val).1.archive = s.archive := by
  simp only [processAlive]
  split
  · rfl
  · split <;> rfl

theorem processResponse_archive (s : MPIState) (src : Nat) (req : Request)
    (found : Bool) : (processResponse s src req found).archive = s.archive := by
  simp only [processResponse]
  split <;> rfl

theorem processResponseData_archive (s : MPIState) (src : Nat) (req : Request)
    (valid : Bool) (rdata : List Nat) :
    (processResponseData s src req valid rdata).archive = s.archive := by
  simp only [processResponseData]
  split <;> rfl

theorem stepEvent_archive (s : MPIState) (ev : NetEvent) :
    (stepEvent s ev).1.archive = s.archive := by
  cases ev with
  | aliveEv src val => exact processAlive_archive s src val
  | responseEv src req found => exact processResponse_archive s src req found
  | responseDataEv src req valid rdata =>
      exact processResponseData_archive s src req valid rdata

end OA

namespace OA

theorem registry_find?_map (l : List (Request × ReqState))
    (f : Request × ReqState → Request × ReqState) (hf : ∀ p, (f p).1 = p.1)
    (r : Request) :
    (l.map f).find? (fun p => p.1 == r) =
      (l.find? (fun p => p.1 == r)).map f := by
  induction l with
  | nil => simp
  | cons p ps ih =>
    simp only [List.map_cons, List.find?_cons, hf]
    by_cases h : p.1 = r
    · have hb : (p.1 == r) = true := by simp [h]
      simp [hb]
    · have hb : (p.1 == r) = false := by simp [h]
      simp [hb, ih]

theorem registryGet_map (l : List (Request × ReqState))
    (f : Request × ReqState → Request × ReqState) (hf : ∀ p, (f p).1 = p.1)
    (r : Request) :
    registryGet (l.map f) r =
      ((l.find? (fun p => p.1 == r)).map (fun p => (f p).2)) := by
  unfold registryGet
  rw [registry_find?_map l f hf r]
  cases l.find? (fun p => p.1 == r) <;> rfl

theorem processAlive_notValid (s : MPIState) (src : Nat) (val : Bool) (req : Request)
    (h : ∀ st, registryGet s.registry req = some st → st.dataValid ≠ some true) :
    ∀ st', registryGet (processAlive s src val).1.registry req = some st' →
      st'.dataValid ≠ some true := by
  intro st' hst'
  simp only [processAlive] at hst'
  split at hst'
  · exact h st' hst'
  · split at hst'
    · rw [registryGet_map _ _ (by intro p; split <;> rfl) req] at hst'
      cases hfind : s.registry.find? (fun p => p.1 == req) with
      | none => rw [hfind] at hst'; exact absurd hst' (by simp)
      | some p =>
        rw [hfind] at hst'
        have hp : registryGet s.registry req = some p.2 := by
          unfold registryGet; rw [hfind]; rfl
        have hdv := h p.2 hp
        simp at hst'
        rw [← hst']
        split <;> simpa using hdv
    · exact h st' hst'
end OA

namespace OA

theorem processResponse_notValid (s : MPIState) (src : Nat) (req' req : Request)
    (found : Bool)
    (h : ∀ st, registryGet s.registry req = some st → st.dataValid ≠ some true) :
    ∀ st', registryGet (processResponse s src req' found).registry req = some st' →
      st'.dataValid ≠ some true := by
  intro st' hst'
  simp only [processResponse] at hst'
  split at hst'
  · simp only [registryUpd] at hst'
    rw [registryGet_map _ _ (by intro p; split <;> rfl) req] at hst'
    cases hfind : s.registry.find? (fun p => p.1 == req) with
    | none => rw [hfind] at hst'; exact absurd hst' (by simp)
    | some p =>
      rw [hfind] at hst'
      have hp : registryGet s.registry req = some p.2 := by
        unfold registryGet; rw [hfind]; rfl
      have hdv := h p.2 hp
      simp at hst'
      rw [← hst']
      split
      · split <;> simpa using hdv
      · simpa using hdv
  · exact h st' hst'

theorem processResponseData_notValid (s : MPIState) (src : Nat) (req' req : Request)
    (valid : Bool) (rd : List Nat)
    (hne : req' = req → valid = false)
    (h : ∀ st, registryGet s.registry req = some st → st.dataValid ≠ some true) :
    ∀ st', registryGet (processResponseData s src req' valid rd).registry req = some st' →
      st'.dataValid ≠ some true := by
  intro st' hst'
  simp only [processResponseData] at hst'
  split at hst'
  · simp only [registryUpd] at hst'
    rw [registryGet_map _ _ (by intro p; split <;> rfl) req] at hst'
    cases hfind : s.registry.find? (fun p => p.1 == req) with
    | none => rw [hfind] at hst'; exact absurd hst' (by simp)
    | some p =>
      rw [hfind] at hst'
      have hpkey : p.1 = req := by
        have := List.find?_some hfind
        simpa using this
      have hdv := h p.2 (by unfold registryGet; rw [hfind]; rfl)
      simp at hst'
      rw [← hst']
      by_cases hreq : p.1 = req'
      · have hv : valid = false := hne (by rw [← hreq, hpkey])
        subst hv
        simp [hreq]
      · simp [hreq]
        exact hdv
  · exact h st' hst'

theorem stepEvent_notValid (s : MPIState) (ev : NetEvent) (req : Request)
    (hev : ∀ src rd, ev ≠ NetEvent.responseDataEv src req true rd)
    (h : ∀ st, registryGet s.registry req = some st → st.dataValid ≠ some true) :
    ∀ st', registryGet (stepEvent s ev).1.registry req = some st' →
      st'.dataValid ≠ some true := by
  cases ev with
  | aliveEv src val => exact processAlive_notValid s src val req h
  | responseEv src req' found => exact processResponse_notValid s src req' req found h
  | responseDataEv src req' valid rd =>
    refine processResponseData_notValid s src req' req valid rd ?_ h
    intro hk
    subst hk
    cases valid with
    | false => rfl
    | true => exact absurd rfl (hev src rd)

end OA

namespace OA

theorem registryGet_put_self (reg : List (Request × ReqState)) (r : Request)
    (st : ReqState) : registryGet (registryPut reg r st) r = some st := by
  unfold registryPut
  split
  · rename_i hhas
    unfold registryUpd
    rw [registryGet_map _ _ (by intro p; split <;> rfl) r]
    unfold registryHas at hhas
    cases hfind : reg.find? (fun p => p.1 == r) with
    | none => rw [hfind] at hhas; simp at hhas
    | some p =>
      have hpkey : p.1 = r := by
        have := List.find?_some hfind
        simpa using this
      simp [hpkey]
  · unfold registryGet
    rename_i hhas
    unfold registryHas at hhas
    cases hfind : reg.find? (fun p => p.1 == r) with
    | none =>
      rw [List.find?_append, hfind]
      simp
    | some p => rw [hfind] at hhas; simp at hhas

theorem waitPhase1_facts :
    ∀ (events : List NetEvent) (s : MPIState) (req : Request)
      (res : MPIState × List NetEvent × List OutMsg),
      waitPhase1 events s req = some res →
      res.1.archive = s.archive ∧ (∀ x ∈ res.2.1, x ∈ events) := by
  intro events
  induction events with
  | nil =>
    intro s req res h
    rw [waitPhase1] at h
    split at h
    · exact Option.noConfusion h
    · split at h
      · exact Option.noConfusion h
      · have hres := Option.some_inj.mp h
        subst hres
        exact ⟨rfl, fun x hx => hx⟩
  | cons ev rest ih =>
    intro s req res h
    rw [waitPhase1] at h
    split at h
    · exact Option.noConfusion h
    · split at h
      · cases hrec : waitPhase1 rest (stepEvent s ev).1 req with
        | none => rw [hrec] at h; exact Option.noConfusion h
        | some res' =>
          rcases res' with ⟨s'', rem, outs⟩
          rw [hrec] at h
          have hres := Option.some_inj.mp h
          subst hres
          have harch := stepEvent_archive s ev
          have hrest := ih (stepEvent s ev).1 req (s'', rem, outs) hrec
          refine ⟨?_, fun x hx => List.mem_cons_of_mem ev (hrest.2 x hx)⟩
          show s''.archive = s.archive
          rw [show s''.archive = (stepEvent s ev).1.archive from hrest.1, harch]
      · have hres := Option.some_inj.mp h
        subst hres
        exact ⟨rfl, fun x hx => hx⟩

theorem waitPhase2_facts :
    ∀ (events : List NetEvent) (s : MPIState) (req : Request) (fsrc : Nat)
      (res : MPIState × List NetEvent × List OutMsg),
      waitPhase2 events s req fsrc = some res →
      res.1.archive = s.archive ∧ (∀ x ∈ res.2.1, x ∈ events) := by
  intro events
  induction events with
  | nil =>
    intro s req fsrc res h
    rw [waitPhase2] at h
    split at h
    · exact Option.noConfusion h
    · split at h
      · exact Option.noConfusion h
      · have hres := Option.some_inj.mp h
        subst hres
        exact ⟨rfl, fun x hx => hx⟩
  | cons ev rest ih =>
    intro s req fsrc res h
    rw [waitPhase2] at h
    split at h
    · exact Option.noConfusion h
    · split at h
      · cases hrec : waitPhase2 rest (stepEvent s ev).1 req fsrc with
        | none => rw [hrec] at h; exact Option.noConfusion h
        | some res' =>
          rcases res' with ⟨s'', rem, outs⟩
          rw [hrec] at h
          have hres := Option.some_inj.mp h
          subst hres
          have harch := stepEvent_archive s ev
          have hrest := ih (stepEvent s ev).1 req fsrc (s'', rem, outs) hrec
          refine ⟨?_, fun x hx => List.mem_cons_of_mem ev (hrest.2 x hx)⟩
          show s''.archive = s.archive
          rw [show s''.archive = (stepEvent s ev).1.archive from hrest.1, harch]
      · have hres := Option.some_inj.mp h
        subst hres
        exact ⟨rfl, fun x hx => hx⟩

theorem waitPhase1_notValid :
    ∀ (events : List NetEvent) (s : MPIState) (req : Request)
      (res : MPIState × List NetEvent × List OutMsg),
      waitPhase1 events s req = some res →
      (∀ src rd, NetEvent.responseDataEv src req true rd ∉ events) →
      (∀ st, registryGet s.registry req = some st → st.dataValid ≠ some true) →
      ∀ st', registryGet res.1.registry req = some st' → st'.dataValid ≠ some true := by
  intro events
  induction events with
  | nil =>
    intro s req res h _ hnv
    rw [waitPhase1] at h
    split at h
    · exact Option.noConfusion h
    · split at h
      · exact Option.noConfusion h
      · have hres := Option.some_inj.mp h
        subst hres
        exact hnv
  | cons ev rest ih =>
    intro s req res h hev hnv
    rw [waitPhase1] at h
    split at h
    · exact Option.noConfusion h
    · split at h
      · cases hrec : waitPhase1 rest (stepEvent s ev).1 req with
        | none => rw [hrec] at h; exact Option.noConfusion h
        | some res' =>
          rcases res' with ⟨s'', rem, outs⟩
          rw [hrec] at h
          have hres := Option.some_inj.mp h
          subst hres
          have hstep' := stepEvent_notValid s ev req
            (by
              intro src rd hcon
              exact hev src rd (by rw [hcon]; exact List.mem_cons_self _ _))
            hnv
          exact ih (stepEvent s ev).1 req (s'', rem, outs) hrec
            (fun src rd hmem => hev src rd (List.mem_cons_of_mem ev hmem))
            hstep'
      · have hres := Option.some_inj.mp h
        subst hres
        exact hnv

theorem waitPhase2_notValid :
    ∀ (events : List NetEvent) (s : MPIState) (req : Request) (fsrc : Nat)
      (res : MPIState × List NetEvent × List OutMsg),
      waitPhase2 events s req fsrc = some res →
      (∀ src rd, NetEvent.responseDataEv src req true rd ∉ events) →
      (∀ st, registryGet s.registry req = some st → st.dataValid ≠ some true) →
      ∀ st', registryGet res.1.registry req = some st' → st'.dataValid ≠ some true := by
  intro events
  induction events with
  | nil =>
    intro s req fsrc res h _ hnv
    rw [waitPhase2] at h
    split at h
    · exact Option.noConfusion h
    · split at h
      · exact Option.noConfusion h
      · have hres := Option.some_inj.mp h
        subst hres
        exact hnv
  | cons ev rest ih =>
    intro s req fsrc res h hev hnv
    rw [waitPhase2] at h
    split at h
    · exact Option.noConfusion h
    · split at h
      · cases hrec : waitPhase2 rest (stepEvent s ev).1 req fsrc with
        | none => rw [hrec] at h; exact Option.noConfusion h
        | some res' =>
          rcases res' with ⟨s'', rem, outs⟩
          rw [hrec] at h
          have hres := Option.some_inj.mp h
          subst hres
          have hstep' := stepEvent_notValid s ev req
            (by
              intro src rd hcon
              exact hev src rd (by rw [hcon]; exact List.mem_cons_self _ _))
            hnv
          exact ih (stepEvent s ev).1 req fsrc (s'', rem, outs) hrec
            (fun src rd hmem => hev src rd (List.mem_cons_of_mem ev hmem))
            hstep'
      · have hres := Option.some_inj.mp h
        subst hres
        exact hnv

end OA

namespace OA

theorem getResponse_general (s : MPIState) (source : Option Nat) (nW : Int)
    (req : Request) (events : List NetEvent)
    (res : Option (List Nat) × MPIState × List NetEvent × List OutMsg)
    (h : getResponse s source nW req events = some res) :
    res.2.1.archive = s.archive ∧ (∀ x ∈ res.2.2.1, x ∈ events) := by
  unfold getResponse at h
  cases h1 : waitPhase1 events
      { s with registry :=
          registryPut s.registry req (⟨source, nW, none, none, []⟩ : ReqState) } req with
  | none =>
    simp only [h1, Option.bind_eq_bind, Option.none_bind] at h
    exact Option.noConfusion h
  | some r1 =>
    rcases r1 with ⟨s₂, rem₁, out₁⟩
    simp only [h1, Option.bind_eq_bind, Option.some_bind] at h
    have hp1 := waitPhase1_facts events _ req (s₂, rem₁, out₁) h1
    cases hfound : (registryGet s₂.registry req).bind (fun st => st.found) with
    | none =>
      simp only [hfound, Option.pure_def] at h
      have hres := Option.some_inj.mp h
      subst hres
      exact ⟨hp1.1, hp1.2⟩
    | some fsrc =>
      simp only [hfound] at h
      cases h2 : waitPhase2 rem₁ s₂ req fsrc with
      | none =>
        simp only [h2, Option.bind_eq_bind, Option.none_bind] at h
        exact Option.noConfusion h
      | some r2 =>
        rcases r2 with ⟨s₃, rem₂, out₃⟩
        simp only [h2, Option.bind_eq_bind, Option.some_bind, Option.pure_def] at h
        have hp2 := waitPhase2_facts rem₁ s₂ req fsrc (s₃, rem₂, out₃) h2
        have hres := Option.some_inj.mp h
        subst hres
        have e1 : s₂.archive = s.archive := by simpa using hp1.1
        have e2 : s₃.archive = s₂.archive := by simpa using hp2.1
        refine ⟨by simp only [e2, e1], ?_⟩
        intro x hx
        exact hp1.2 x (hp2.2 x hx)

end OA

namespace OA

theorem getResponse_noValid (s : MPIState) (source : Option Nat) (nW : Int)
    (req : Request) (events : List NetEvent)
    (res : Option (List Nat) × MPIState × List NetEvent × List OutMsg)
    (h : getResponse s source nW req events = some res)
    (hnv : ∀ src rd, NetEvent.responseDataEv src req true rd ∉ events) :
    res.1 = none := by
  unfold getResponse at h
  cases h1 : waitPhase1 events
      { s with registry :=
          registryPut s.registry req (⟨source, nW, none, none, []⟩ : ReqState) } req with
  | none =>
    simp only [h1, Option.bind_eq_bind, Option.none_bind] at h
    exact Option.noConfusion h
  | some r1 =>
    rcases r1 with ⟨s₂, rem₁, out₁⟩
    simp only [h1, Option.bind_eq_bind, Option.some_bind] at h
    have hstart : ∀ st, registryGet
        (registryPut s.registry req (⟨source, nW, none, none, []⟩ : ReqState)) req =
        some st → st.dataValid ≠ some true := by
      intro st hst
      rw [registryGet_put_self] at hst
      have := Option.some_inj.mp hst
      rw [← this]
      simp
    have hnv2 := waitPhase1_notValid events _ req (s₂, rem₁, out₁) h1 hnv hstart
    have hrem := (waitPhase1_facts events _ req (s₂, rem₁, out₁) h1).2
    cases hfound : (registryGet s₂.registry req).bind (fun st => st.found) with
    | none =>
      simp only [hfound, Option.pure_def] at h
      have hres := Option.some_inj.mp h
      subst hres
      rfl
    | some fsrc =>
      simp only [hfound] at h
      cases h2 : waitPhase2 rem₁ s₂ req fsrc with
      | none =>
        simp only [h2, Option.bind_eq_bind, Option.none_bind] at h
        exact Option.noConfusion h
      | some r2 =>
        rcases r2 with ⟨s₃, rem₂, out₃⟩
        simp only [h2, Option.bind_eq_bind, Option.some_bind, Option.pure_def] at h
        have hnv3 := waitPhase2_notValid rem₁ s₂ req fsrc (s₃, rem₂, out₃) h2
          (by
            intro src rd hmem
            exact hnv src rd (hrem _ hmem))
          (by simpa using hnv2)
        have hres := Option.some_inj.mp h
        subst hres
        have hcond : ¬ ((registryGet s₃.registry req).bind
            (fun x => x.dataValid)).getD false = true := by
          cases hg : registryGet s₃.registry req with
          | none => simp
          | some st =>
            have hnt := hnv3 st (by simpa using hg)
            simp only [Option.some_bind]
            cases hdv : st.dataValid with
            | none => simp
            | some b =>
              cases b with
              | false => simp
              | true => exact absurd hdv hnt
        show (if ((registryGet s₃.registry req).bind (fun x => x.dataValid)).getD false =
            true then some ((Option.map (fun x => x.rdata)
              (registryGet s₃.registry req)).getD []) else none) = none
        exact if_neg hcond

end OA

namespace OA

theorem c6_remote_miss_returns_zero (s : MPIState) (k : Nat) (d : List Nat)
    (keep : Bool) (events : List NetEvent)
    (hmiss : isAvailable s.archive k = false)
    (hnoval : ∀ src rdata, NetEvent.responseDataEv src
      { key := k, counter := s.requestCounter } true rdata ∉ events)
    (r : Nat × List Nat × MPIState × List NetEvent × List OutMsg)
    (hrun : mpiLoadRaw s k d keep events = some r) :
    r.1 = 0 ∧ r.2.1 = d ∧ r.2.2.1.archive = s.archive := by
  have hf : findTriple s.archive k = none := by
    unfold isAvailable at hmiss
    exact Option.not_isSome_iff_eq_none.mp (by simp [hmiss])
  have hload : loadRawOp s.archive k d keep = some (0, d, s.archive) := by
    simp [loadRawOp, hf]
  unfold mpiLoadRaw at hrun
  rw [hload] at hrun
  simp only [if_pos] at hrun
  cases hg : getResponse { s with archive := s.archive, requestCounter := s.requestCounter + 1 }
      none ((s.alive.filter (fun b => b = true)).length : Int)
      { key := k, counter := s.requestCounter } events with
  | none =>
    rw [hg] at hrun
    exact Option.noConfusion hrun
  | some res =>
    rcases res with ⟨respData, s₃, rem, outs⟩
    rw [hg] at hrun
    have hnone := getResponse_noValid _ _ _ _ _ _ hg hnoval
    simp only at hnone
    subst hnone
    have hres := Option.some_inj.mp hrun
    subst hres
    have harch := (getResponse_general _ _ _ _ _ _ hg).1
    simp only at harch
    exact ⟨rfl, rfl, harch⟩

end OA

namespace OA

/-- Witness for C6 at a concrete input: rank 0 with one alive peer looks up
the locally-missing key 3; the peer answers negatively; the load returns 0
with the caller's buffer and the local archive untouched. -/
theorem c6_remote_miss_returns_zero_witness :
    isAvailable mpiWitnessNode.archive 3 = false ∧
    mpiLoadRaw mpiWitnessNode 3 [9] true c6WitnessEvents = some c6WitnessRes ∧
    c6WitnessRes.1 = 0 ∧ c6WitnessRes.2.1 = [9] ∧
    c6WitnessRes.2.2.1.archive = mpiWitnessNode.archive := by
  have hnv : ∀ src rdata, NetEvent.responseDataEv src
      { key := 3, counter := mpiWitnessNode.requestCounter } true rdata ∉
        c6WitnessEvents := by
    intro src rdata hmem
    simp [c6WitnessEvents] at hmem
  have h := c6_remote_miss_returns_zero mpiWitnessNode 3 [9] true c6WitnessEvents
    (by decide) hnv c6WitnessRes (by decide)
  exact ⟨by decide, by decide, h.1, h.2.1, h.2.2⟩

/-- C8.  (spec-modelled dispatcher: see `NetEvent`.)  The `inserted(key)`
handler always removes the local copy first; exactly when the
remote-insert filter accepts the key it sends a targeted `request` to the
announcing rank and runs the get-response protocol registered with
`source = src` and `waiting = 1`; and when a valid payload comes back it
is inserted into the local archive with `keep_in_buffer = false` on top of
the removed state. -/
theorem c8_process_inserted (filt : Nat → Bool) (s : MPIState) (src k : Nat)
    (events : List NetEvent) (r : MPIState × List NetEvent × List OutMsg)
    (hrun : processInserted filt s src k events = some r) :
    (filt k = false → r = ({ s with archive := removeOp s.archive k }, events, [])) ∧
    (filt k = true → ∃ res,
      getResponse { s with archive := removeOp s.archive k, requestCounter := s.requestCounter + 1 } (some src) 1 { key := k, counter := s.requestCounter } events = some res ∧
      r.2.2 = OutMsg.requestMsg src { key := k, counter := s.requestCounter } :: res.2.2.2 ∧
      (res.1 = none → r.1.archive = removeOp s.archive k) ∧
      (∀ bytes, res.1 = some bytes → ∃ n,
        insertRawOp (removeOp s.archive k) k bytes false = some (n, r.1.archive))) := by
  unfold processInserted at hrun
  cases hfk : filt k with
  | false =>
    rw [hfk] at hrun
    simp only [Bool.false_eq_true, if_false] at hrun
    have hres := Option.some_inj.mp hrun
    subst hres
    exact ⟨fun _ => rfl, fun hc => absurd hc (by simp)⟩
  | true =>
    rw [hfk] at hrun
    simp only [if_pos] at hrun
    cases hg : getResponse { s with archive := removeOp s.archive k, requestCounter := s.requestCounter + 1 } (some src) 1 { key := k, counter := s.requestCounter } events with
    | none =>
      rw [hg] at hrun
      exact Option.noConfusion hrun
    | some res =>
      rcases res with ⟨respData, s₃, rem, outs⟩
      rw [hg] at hrun
      dsimp only at hrun
      have harch := (getResponse_general _ _ _ _ _ _ hg).1
      simp only at harch
      refine ⟨fun hc => Bool.noConfusion hc, fun _ => ?_⟩
      cases respData with
      | none =>
        have hres := Option.some_inj.mp hrun
        subst hres
        refine ⟨(none, s₃, rem, outs), rfl, rfl, fun _ => harch, ?_⟩
        intro bytes hb
        exact Option.noConfusion hb
      | some bytes =>
        dsimp only at hrun
        cases hins : insertRawOp s₃.archive k bytes false with
        | none =>
          rw [hins] at hrun
          exact Option.noConfusion hrun
        | some p =>
          rcases p with ⟨n, a₂⟩
          rw [hins] at hrun
          have hres := Option.some_inj.mp hrun
          subst hres
          refine ⟨(some bytes, s₃, rem, outs), rfl, rfl, ?_, ?_⟩
          · intro hcon
            exact Option.noConfusion hcon
          · intro bytes' hb
            have hbb := Option.some_inj.mp hb
            subst hbb
            refine ⟨n, ?_⟩
            rw [← harch]
            exact hins

end OA

namespace OA

/-- Witness for C8 at concrete inputs: with an accept-all filter the node
removes key 3, requests it from the announcer (rank 1), pulls the valid
payload `[42]` and stores it with `keep_in_buffer = false`; with a
reject-all filter it only removes the local copy and sends nothing. -/
theorem c8_process_inserted_witness :
    processInserted (fun _ => true) mpiWitnessNode 1 3 c8WitnessEvents =
      some c8WitnessRes ∧
    processInserted (fun _ => false) mpiWitnessNode 1 3 c8WitnessEvents =
      some ({ mpiWitnessNode with archive := removeOp mpiWitnessNode.archive 3 },
        c8WitnessEvents, []) ∧
    c8WitnessRes.2.2.head? = some (OutMsg.requestMsg 1 { key := 3, counter := 0 }) ∧
    insertRawOp (removeOp mpiWitnessNode.archive 3) 3 [42] false =
      some (1, c8WitnessRes.1.archive) := by
  refine ⟨by decide, ?_, by decide, by decide⟩
  have h := (c8_process_inserted (fun _ => false) mpiWitnessNode 1 3 c8WitnessEvents
    ({ mpiWitnessNode with archive := removeOp mpiWitnessNode.archive 3 },
      c8WitnessEvents, [])
    (by decide)).1 rfl
  exact h ▸ (by decide : processInserted (fun _ => false) mpiWitnessNode 1 3
    c8WitnessEvents =
      some ({ mpiWitnessNode with archive := removeOp mpiWitnessNode.archive 3 },
        c8WitnessEvents, []))

end OA

/-! ## Helper lemmas and theorems: C3 and C4 -/

namespace OA

/-! ## Key-triple lemmas for the insert/load roundtrip (C3 / C4) -/

theorem find?_of_filter_single (l : List (Nat × Nat × ObjectEntry)) (k id : Nat)
    (e : ObjectEntry) (h : l.filter (fun t => t.1 = k) = [(k, id, e)]) :
    l.find? (fun t => t.1 == k) = some (k, id, e) := by
  induction l with
  | nil => simp at h
  | cons t ts ih =>
    by_cases ht : t.1 = k
    · rw [List.filter_cons_of_pos (by simpa using ht)] at h
      have hhead := List.head_eq_of_cons_eq h
      subst hhead
      simp [List.find?]
    · rw [List.filter_cons_of_neg (by simpa using ht)] at h
      have hb : (t.1 == k) = false := by simp [ht]
      simp [List.find?, hb, ih h]

theorem findTriple_of_single (s : ArchiveState) (k id : Nat) (e : ObjectEntry)
    (h : keyTriples s k = [(k, id, e)]) : findTriple s k = some (id, e) := by
  unfold findTriple
  rw [find?_of_filter_single s.objects k id e h]
  rfl

theorem findTriple_none_of_nil (s : ArchiveState) (k : Nat)
    (h : keyTriples s k = []) : findTriple s k = none := by
  unfold findTriple
  unfold keyTriples at h
  have hall := List.filter_eq_nil_iff.mp h
  rw [List.find?_eq_none.mpr]
  · rfl
  · intro x hx
    simpa using hall x hx

theorem filter_replaceKey_ne (l : List (Nat × Nat × ObjectEntry)) (k kp : Nat)
    (e : ObjectEntry) (hne : kp ≠ k) :
    (replaceKey l kp e).filter (fun t => t.1 = k) = l.filter (fun t => t.1 = k) := by
  induction l with
  | nil => rfl
  | cons t ts ih =>
    unfold replaceKey
    by_cases ht : t.1 = kp
    · rw [if_pos ht]
      rw [List.filter_cons_of_neg (by simp [ht, hne]),
          List.filter_cons_of_neg (by simp [ht, hne])]
    · rw [if_neg ht]
      cases htk : decide (t.1 = k) with
      | true =>
        have htk' : t.1 = k := of_decide_eq_true htk
        rw [List.filter_cons_of_pos (by simpa using htk'),
            List.filter_cons_of_pos (by simpa using htk'), ih]
      | false =>
        have htk' : ¬ t.1 = k := of_decide_eq_false htk
        rw [List.filter_cons_of_neg (by simpa using htk'),
            List.filter_cons_of_neg (by simpa using htk'), ih]

theorem filter_replaceKey_self (l : List (Nat × Nat × ObjectEntry)) (k id : Nat)
    (e0 e : ObjectEntry) (h : l.filter (fun t => t.1 = k) = [(k, id, e0)]) :
    (replaceKey l k e).filter (fun t => t.1 = k) = [(k, id, e)] := by
  induction l with
  | nil => simp at h
  | cons t ts ih =>
    unfold replaceKey
    by_cases ht : t.1 = k
    · rw [if_pos ht]
      rw [List.filter_cons_of_pos (by simpa using ht)] at h
      have hhead := List.head_eq_of_cons_eq h
      have htail := List.tail_eq_of_cons_eq h
      rw [List.filter_cons_of_pos (by simpa using ht)]
      have : t.2.1 = id := by
        have := congrArg (fun q => q.2.1) hhead
        simpa using this
      rw [ht, this, htail]
    · rw [if_neg ht]
      rw [List.filter_cons_of_neg (by simpa using ht)] at h
      rw [List.filter_cons_of_neg (by simpa using ht)]
      exact ih h

theorem slice_append_of_le (l m : List Nat) (i n : Nat) (h : i + n ≤ l.length) :
    slice (l ++ m) i n = slice l i n := by
  unfold slice
  rw [List.drop_append_of_le_length (by omega)]
  rw [List.take_append_of_le_length (by simp; omega)]

theorem slice_append_self (l m : List Nat) : slice (l ++ m) l.length m.length = m := by
  unfold slice
  rw [List.drop_left]
  exact List.take_length m

theorem slice_length_of_le (l : List Nat) (i n : Nat) (h : i + n ≤ l.length) :
    (slice l i n).length = n := by
  unfold slice
  simp
  omega

theorem filter_replaceKey_mem (l : List (Nat × Nat × ObjectEntry)) (kp : Nat)
    (e : ObjectEntry) (k : Nat) (t : Nat × Nat × ObjectEntry)
    (h : t ∈ (replaceKey l kp e).filter (fun x => x.1 = k)) :
    t ∈ l.filter (fun x => x.1 = k) ∨ t.2.2 = e := by
  induction l with
  | nil => simp [replaceKey] at h
  | cons q qs ih =>
    unfold replaceKey at h
    by_cases hq : q.1 = kp
    · rw [if_pos hq] at h
      rcases List.mem_filter.mp h with ⟨hmem, hpred⟩
      cases List.mem_cons.mp hmem with
      | inl heq => right; rw [heq]
      | inr hts =>
        left
        exact List.mem_filter.mpr ⟨List.mem_cons_of_mem q hts, hpred⟩
    · rw [if_neg hq] at h
      rcases List.mem_filter.mp h with ⟨hmem, hpred⟩
      cases List.mem_cons.mp hmem with
      | inl heq =>
        left
        exact List.mem_filter.mpr ⟨by rw [heq]; exact List.mem_cons_self q qs, hpred⟩
      | inr hts =>
        cases ih (List.mem_filter.mpr ⟨hts, hpred⟩) with
        | inl hl =>
          left
          rcases List.mem_filter.mp hl with ⟨hm, hp⟩
          exact List.mem_filter.mpr ⟨List.mem_cons_of_mem q hm, hp⟩
        | inr hr => right; exact hr

theorem slice_zero (l : List Nat) (i : Nat) : slice l i 0 = [] := by
  unfold slice
  simp

theorem keyTriples_nil_of_findTriple_none (s : ArchiveState) (k : Nat)
    (h : findTriple s k = none) : keyTriples s k = [] := by
  unfold findTriple at h
  cases hfind : s.objects.find? (fun t => t.1 == k) with
  | some t =>
    rw [hfind] at h
    exact Option.noConfusion h
  | none =>
    have hall := List.find?_eq_none.mp hfind
    unfold keyTriples
    rw [List.filter_eq_nil_iff]
    intro t ht
    have hne := hall t ht
    simp at hne ⊢
    exact hne

theorem filter_eraseKey_self (l : List (Nat × Nat × ObjectEntry)) (k : Nat) :
    (eraseKey l k).filter (fun t => t.1 = k) = [] := by
  rw [List.filter_eq_nil_iff]
  intro t ht
  rcases List.mem_filter.mp ht with ⟨_, hp⟩
  simp at hp ⊢
  exact hp

theorem removeOp_keyTriples_nil (s : ArchiveState) (k : Nat) :
    keyTriples (removeOp s k) k = [] := by
  cases hf : findTriple s k with
  | none =>
    simp only [removeOp, hf]
    exact keyTriples_nil_of_findTriple_none s k hf
  | some p =>
    simp only [removeOp, hf, keyTriples]
    exact filter_eraseKey_self s.objects k

theorem writeBack_keyTriples_nil (s : ArchiveState) (k kp : Nat)
    (h : keyTriples s k = []) : keyTriples (writeBackUpd s kp) k = [] := by
  cases hf : findTriple s kp with
  | none =>
    simp only [writeBackUpd, hf]
    exact h
  | some p =>
    rcases p with ⟨idp, ep⟩
    by_cases hkk : kp = k
    · subst hkk
      rw [findTriple_none_of_nil s kp h] at hf
      exact Option.noConfusion hf
    · simp only [writeBackUpd, hf, keyTriples]
      rw [filter_replaceKey_ne s.objects k kp _ hkk]
      exact h

theorem writeBack_keyDataEmpty (s : ArchiveState) (k kp : Nat)
    (h : keyDataEmpty s k) : keyDataEmpty (writeBackUpd s kp) k := by
  cases hf : findTriple s kp with
  | none =>
    simp only [writeBackUpd, hf]
    exact h
  | some p =>
    rcases p with ⟨idp, ep⟩
    simp only [writeBackUpd, hf]
    intro t ht
    simp only [keyTriples] at ht
    cases filter_replaceKey_mem s.objects kp _ k t ht with
    | inl hl => exact h t hl
    | inr hr =>
      rw [hr]

/-- `unload` preserves any property that every single `write_back`
preserves. -/
theorem unloadAux_preserve (P : ArchiveState → Prop)
    (hP : ∀ s kp, P s → P (writeBackUpd s kp)) :
    ∀ fuel s d s', unloadAux fuel s d = some s' → P s → P s' := by
  intro fuel
  induction fuel with
  | zero =>
    intro s d s' h _
    exact Option.noConfusion h
  | succ n ih =>
    intro s d s' h hs
    rw [unloadAux] at h
    by_cases hb : s.bufferSize ≤ d
    · rw [if_pos hb] at h
      have := Option.some_inj.mp h
      exact this ▸ hs
    · rw [if_neg hb] at h
      cases hl : s.lru.getLast? with
      | none =>
        rw [hl] at h
        exact Option.noConfusion h
      | some id =>
        rw [hl] at h
        dsimp only at h
        cases hfind : s.objects.find? (fun t => t.2.1 == id) with
        | none =>
          rw [hfind] at h
          exact Option.noConfusion h
        | some t =>
          rw [hfind] at h
          dsimp only at h
          exact ih (writeBackUpd s t.1) d s' h (hP s t.1 hs)


/-- `write_back` of any key preserves the faithful-payload property of
key `k`. -/
theorem writeBack_goodAt (s : ArchiveState) (k kp : Nat) (v : List Nat)
    (hg : GoodAt s k v) : GoodAt (writeBackUpd s kp) k v := by
  obtain ⟨id, e, hkt, hsz, hmT, hmF, hd⟩ := hg
  cases hf : findTriple s kp with
  | none =>
    simp only [writeBackUpd, hf]
    exact ⟨id, e, hkt, hsz, hmT, hmF, hd⟩
  | some p =>
    rcases p with ⟨idp, ep⟩
    by_cases hkk : kp = k
    · subst hkk
      have hfk := findTriple_of_single s kp id e hkt
      rw [hf] at hfk
      have hpair := Option.some_inj.mp hfk
      have hid : idp = id := congrArg Prod.fst hpair
      have he : ep = e := congrArg Prod.snd hpair
      subst hid
      subst he
      cases hm : ep.modified with
      | true =>
        simp only [writeBackUpd, hf, hm, eq_self_iff_true, if_true]
        refine ⟨idp, ⟨[], s.file.length, ep.size, false⟩, ?_, ?_, ?_, ?_, ?_⟩
        · exact filter_replaceKey_self s.objects kp idp ep _ hkt
        · exact hsz
        · intro hc
          exact absurd hc (by simp)
        · intro _
          constructor
          · rw [hmT hm, hsz]
            exact slice_append_self s.file v
          · rw [hmT hm, hsz]
            simp
        · intro hc
          exact absurd rfl hc
      | false =>
        simp only [writeBackUpd, hf, hm, Bool.false_eq_true, if_false]
        refine ⟨idp, ⟨[], ep.indexInFile, ep.size, false⟩, ?_, ?_, ?_, ?_, ?_⟩
        · exact filter_replaceKey_self s.objects kp idp ep _ hkt
        · exact hsz
        · intro hc
          exact absurd hc (by simp)
        · intro _
          exact hmF hm
        · intro hc
          exact absurd rfl hc
    · cases hm : ep.modified with
      | true =>
        simp only [writeBackUpd, hf, hm, eq_self_iff_true, if_true]
        refine ⟨id, e, ?_, hsz, hmT, ?_, hd⟩
        · simp only [keyTriples]
          rw [filter_replaceKey_ne s.objects k kp _ hkk]
          exact hkt
        · intro hm'
          have hb := hmF hm'
          constructor
          · rw [slice_append_of_le s.file ep.data e.indexInFile e.size hb.2]
            exact hb.1
          · have h2 := hb.2
            simp only [List.length_append]
            omega
      | false =>
        simp only [writeBackUpd, hf, hm, Bool.false_eq_true, if_false]
        refine ⟨id, e, ?_, hsz, hmT, ?_, hd⟩
        · simp only [keyTriples]
          rw [filter_replaceKey_ne s.objects k kp _ hkk]
          exact hkt
        · exact hmF

theorem filter_append_single (l : List (Nat × Nat × ObjectEntry)) (k id : Nat)
    (e : ObjectEntry) (h : l.filter (fun t => t.1 = k) = []) :
    (l ++ [(k, id, e)]).filter (fun t => t.1 = k) = [(k, id, e)] := by
  rw [List.filter_append, h]
  simp

/-- Installing a fresh entry for an absent key yields a faithfully held
payload, whether or not it is written back at once. -/
theorem insertFinish_goodAt (s₂ : ArchiveState) (k : Nat) (v : List Nat) (keep : Bool)
    (h : keyTriples s₂ k = []) : GoodAt (insertFinish s₂ k v keep) k v := by
  have h₃ : keyTriples { s₂ with bufferSize := add64 s₂.bufferSize v.length } k = [] := h
  have hf : findTriple { s₂ with bufferSize := add64 s₂.bufferSize v.length } k = none :=
    findTriple_none_of_nil _ k h₃
  simp only [insertFinish, emplace, hf]
  cases keep with
  | true =>
    simp only [if_true]
    refine ⟨s₂.nextId, ⟨v, 0, v.length, true⟩, ?_, rfl, fun _ => rfl, ?_, fun _ => rfl⟩
    · exact filter_append_single s₂.objects k s₂.nextId _ h
    · intro hc
      exact absurd hc (by simp)
  | false =>
    simp only [Bool.false_eq_true, if_false]
    refine writeBack_goodAt _ k k v ?_
    refine ⟨s₂.nextId, ⟨v, 0, v.length, true⟩, ?_, rfl, fun _ => rfl, ?_, fun _ => rfl⟩
    · exact filter_append_single s₂.objects k s₂.nextId _ h
    · intro hc
      exact absurd hc (by simp)

/-- A completed `insert_raw` returns the payload length and leaves the
payload faithfully held under the key. -/
theorem insert_spec (s : ArchiveState) (k : Nat) (v : List Nat) (keep : Bool)
    (n : Nat) (s' : ArchiveState) (h : insertRawOp s k v keep = some (n, s')) :
    n = v.length ∧ GoodAt s' k v := by
  simp only [insertRawOp] at h
  by_cases hc : (if v.length > s.maxBufferSize then false else keep) = true
      ∧ v.length + (removeOp s k).bufferSize > (removeOp s k).maxBufferSize
  · rw [if_pos hc] at h
    cases hu : unload (removeOp s k) ((removeOp s k).maxBufferSize - v.length) with
    | none =>
      rw [hu] at h
      exact Option.noConfusion h
    | some s₂ =>
      rw [hu] at h
      dsimp only at h
      have hp := Option.some_inj.mp h
      have hn : v.length = n := congrArg Prod.fst hp
      have hs' : insertFinish s₂ k v (if v.length > s.maxBufferSize then false else keep) = s' :=
        congrArg Prod.snd hp
      have h₂ : keyTriples s₂ k = [] :=
        unloadAux_preserve (fun st => keyTriples st k = [])
          (fun st kp hh => writeBack_keyTriples_nil st k kp hh)
          _ _ _ _ hu (removeOp_keyTriples_nil s k)
      exact ⟨hn.symm, hs' ▸ insertFinish_goodAt s₂ k v _ h₂⟩
  · rw [if_neg hc] at h
    dsimp only at h
    have hp := Option.some_inj.mp h
    have hn : v.length = n := congrArg Prod.fst hp
    have hs' : insertFinish (removeOp s k) k v
        (if v.length > s.maxBufferSize then false else keep) = s' :=
      congrArg Prod.snd hp
    exact ⟨hn.symm, hs' ▸ insertFinish_goodAt (removeOp s k) k v _
      (removeOp_keyTriples_nil s k)⟩

/-- Reading back a faithfully held, nowhere-resident payload hands out
exactly its bytes. -/
theorem loadFinish_spec (s' : ArchiveState) (k : Nat) (v : List Nat) (size : Nat)
    (keep : Bool) (hg : GoodAt s' k v) (he : keyDataEmpty s' k)
    (hsz : size = v.length) :
    ∃ s₂, loadFinish s' k size keep = some (size, v, s₂) := by
  obtain ⟨id, e, hkt, hesz, hmT, hmF, hd⟩ := hg
  have hfk := findTriple_of_single s' k id e hkt
  have hbuf : slice s'.file e.indexInFile size = v := by
    by_cases hv : v = []
    · subst hv
      rw [hsz]
      exact slice_zero s'.file e.indexInFile
    · have hde : e.data = [] := he (k, id, e) (by rw [hkt]; exact List.mem_singleton_self _)
      have hmf : e.modified = false := by
        cases hmod : e.modified with
        | false => rfl
        | true =>
          have hnil : ([] : List Nat) = v := hde ▸ hmT hmod
          exact absurd hnil.symm hv
      have hb := hmF hmf
      rw [hsz, ← hesz]
      exact hb.1
  simp only [loadFinish, hfk]
  cases keep with
  | true =>
    simp only [if_true]
    exact ⟨_, by rw [hbuf]⟩
  | false =>
    simp only [Bool.false_eq_true, if_false]
    exact ⟨_, by rw [hbuf]⟩

/-- A completed `load_raw` from a state that holds `v` faithfully under
`k` returns the length of `v` and the bytes of `v`. -/
theorem load_spec (s : ArchiveState) (k : Nat) (v d : List Nat) (keep : Bool)
    (r : Nat × List Nat × ArchiveState) (hg : GoodAt s k v)
    (h : loadRawOp s k d keep = some r) : r.1 = v.length ∧ r.2.1 = v := by
  obtain ⟨id, e, hkt, hesz, hmT, hmF, hd⟩ := hg
  have hfk := findTriple_of_single s k id e hkt
  simp only [loadRawOp, hfk] at h
  by_cases hde : e.data = []
  · rw [if_pos hde] at h
    have hkde : keyDataEmpty s k := by
      intro t ht
      rw [hkt] at ht
      have hts := List.mem_singleton.mp ht
      rw [hts]
      exact hde
    by_cases hc : (if e.size > s.maxBufferSize then false else keep) = true
        ∧ e.size + s.bufferSize > s.maxBufferSize
    · rw [if_pos hc] at h
      cases hu : unload s (s.maxBufferSize - e.size) with
      | none =>
        rw [hu] at h
        exact Option.noConfusion h
      | some s' =>
        rw [hu] at h
        dsimp only at h
        have hpres := unloadAux_preserve
            (fun st => GoodAt st k v ∧ keyDataEmpty st k)
            (fun st kp hh => ⟨writeBack_goodAt st k kp v hh.1,
              writeBack_keyDataEmpty st k kp hh.2⟩)
            _ _ _ _ hu ⟨⟨id, e, hkt, hesz, hmT, hmF, hd⟩, hkde⟩
        obtain ⟨s₂, hlf⟩ := loadFinish_spec s' k v e.size
          (if e.size > s.maxBufferSize then false else keep) hpres.1 hpres.2 hesz
        rw [h] at hlf
        have hr := Option.some_inj.mp hlf
        rw [hr]
        exact ⟨hesz, rfl⟩
    · rw [if_neg hc] at h
      dsimp only at h
      obtain ⟨s₂, hlf⟩ := loadFinish_spec s k v e.size
        (if e.size > s.maxBufferSize then false else keep)
        ⟨id, e, hkt, hesz, hmT, hmF, hd⟩ hkde hesz
      rw [h] at hlf
      have hr := Option.some_inj.mp hlf
      rw [hr]
      exact ⟨hesz, rfl⟩
  · rw [if_neg hde] at h
    have hdv : e.data = v := hd hde
    by_cases hk2 : (if e.size > s.maxBufferSize then false else keep) = true
    · rw [if_pos hk2] at h
      have hr := Option.some_inj.mp h
      subst hr
      exact ⟨hesz, hdv⟩
    · rw [if_neg hk2] at h
      have hr := Option.some_inj.mp h
      subst hr
      exact ⟨hesz, hdv⟩

end OA

namespace OA

/-- C3 (amended): on every run in which both operations complete,
`insert_raw(k, v, keep)` returns `|v|` and a subsequent
`load_raw(k, keep')` returns `|v|` and hands out exactly the bytes `v`,
from any starting state and for either value of each `keep_in_buffer`
flag.  (Completion is a genuine hypothesis: the stale-MRU-node bug of C1
can make the eviction loop of either operation fault, see
`c3_insert_faults`.) -/
theorem c3_insert_load_roundtrip (s : ArchiveState) (k : Nat) (v d : List Nat)
    (keep keep' : Bool) (n : Nat) (s₁ : ArchiveState)
    (r : Nat × List Nat × ArchiveState)
    (hins : insertRawOp s k v keep = some (n, s₁))
    (hload : loadRawOp s₁ k d keep' = some r) :
    n = v.length ∧ r.1 = v.length ∧ r.2.1 = v := by
  obtain ⟨hn, hg⟩ := insert_spec s k v keep n s₁ hins
  obtain ⟨h1, h2⟩ := load_spec s₁ k v d keep' r hg hload
  exact ⟨hn, h1, h2⟩

theorem c3_insert_load_roundtrip_witness :
    insertRawOp wit10State 7 [1, 2] true = some (2, c3WitS1) ∧
    loadRawOp c3WitS1 7 [] true = some c3WitRes ∧
    c3WitRes.1 = 2 ∧ c3WitRes.2.1 = [1, 2] := by
  have hins : insertRawOp wit10State 7 [1, 2] true = some (2, c3WitS1) := rfl
  have hload : loadRawOp c3WitS1 7 [] true = some c3WitRes := rfl
  have h := c3_insert_load_roundtrip wit10State 7 [1, 2] [] true true 2 c3WitS1
    c3WitRes hins hload
  exact ⟨hins, hload, h.2.1, h.2.2⟩

/-- C4 (amended): on every run in which all three operations complete,
after `insert_raw(k, v₁)`; `insert_raw(k, v₂)` a `load_raw(k)` returns
`|v₂|` and exactly the bytes `v₂`, and the archive holds exactly one map
node for `k` (the second insert removed the first entry before
installing).  (Completion is a genuine hypothesis, see
`c4_last_writer_faults`.) -/
theorem c4_last_writer_wins (s : ArchiveState) (k : Nat) (v₁ v₂ d : List Nat)
    (k₁ k₂ k₃ : Bool) (n₁ n₂ : Nat) (s₁ s₂ : ArchiveState)
    (r : Nat × List Nat × ArchiveState)
    (h₁ : insertRawOp s k v₁ k₁ = some (n₁, s₁))
    (h₂ : insertRawOp s₁ k v₂ k₂ = some (n₂, s₂))
    (hl : loadRawOp s₂ k d k₃ = some r) :
    n₂ = v₂.length ∧ r.1 = v₂.length ∧ r.2.1 = v₂ ∧
      ∃ id e, keyTriples s₂ k = [(k, id, e)] := by
  obtain ⟨hn, hg⟩ := insert_spec s₁ k v₂ k₂ n₂ s₂ h₂
  obtain ⟨ha, hb⟩ := load_spec s₂ k v₂ d k₃ r hg hl
  obtain ⟨id, e, hkt, -, -, -, -⟩ := hg
  exact ⟨hn, ha, hb, id, e, hkt⟩

theorem c4_last_writer_wins_witness :
    insertRawOp wit10State 7 [1, 2] true = some (2, c4WitS1) ∧
    insertRawOp c4WitS1 7 [9, 9, 9] false = some (3, c4WitS2) ∧
    loadRawOp c4WitS2 7 [] false = some c4WitRes ∧
    c4WitRes.1 = 3 ∧ c4WitRes.2.1 = [9, 9, 9] ∧
    ∃ id e, keyTriples c4WitS2 7 = [(7, id, e)] := by
  have h₁ : insertRawOp wit10State 7 [1, 2] true = some (2, c4WitS1) := rfl
  have h₂ : insertRawOp c4WitS1 7 [9, 9, 9] false = some (3, c4WitS2) := rfl
  have hl : loadRawOp c4WitS2 7 [] false = some c4WitRes := rfl
  have h := c4_last_writer_wins wit10State 7 [1, 2] [9, 9, 9] [] true false false 2 3
    c4WitS1 c4WitS2 c4WitRes h₁ h₂ hl
  exact ⟨h₁, h₂, hl, h.2.1, h.2.2.1, h.2.2.2⟩

end OA

/-! ## Invariant machinery and theorems: C5 and C9 -/

namespace OA

theorem sub64_of_le (a b : Nat) (hb : b ≤ a) (ha : a < W) : sub64 a b = a - b := by
  unfold sub64
  have hbW : b % W = b := Nat.mod_eq_of_lt (lt_of_le_of_lt hb ha)
  rw [hbW]
  have hWb : b ≤ W := le_of_lt (lt_of_le_of_lt hb ha)
  have hsplit : a + (W - b) = (a - b) + W := by omega
  rw [hsplit, Nat.add_mod_right]
  exact Nat.mod_eq_of_lt (lt_of_le_of_lt (Nat.sub_le a b) ha)

theorem unloadAux_done (fuel : Nat) (s : ArchiveState) (d : Nat)
    (hb : s.bufferSize ≤ d) : unloadAux (fuel + 1) s d = some s := by
  rw [unloadAux, if_pos hb]

theorem mem_of_getLast?Eq (l : List Nat) (a : Nat) (h : l.getLast? = some a) : a ∈ l := by
  have hx : a ∈ l.getLast? := by rw [h]; rfl
  obtain ⟨hne, heq⟩ := List.mem_getLast?_eq_getLast hx
  rw [heq]
  exact List.getLast_mem hne

/-- The first map node with key `k` splits the node list; `replaceKey`
replaces exactly that node in place. -/
theorem replaceKey_split (l : List (Nat × Nat × ObjectEntry)) (k : Nat)
    (e : ObjectEntry) (id : Nat) (e0 : ObjectEntry)
    (hfind : l.find? (fun t => t.1 == k) = some (k, id, e0)) :
    ∃ l₁ l₂, l = l₁ ++ (k, id, e0) :: l₂ ∧
      replaceKey l k e = l₁ ++ (k, id, e) :: l₂ ∧
      ∀ t ∈ l₁, t.1 ≠ k := by
  induction l with
  | nil => exact Option.noConfusion hfind
  | cons q qs ih =>
    by_cases hq : q.1 = k
    · have hpq : (q.1 == k) = true := by simp [hq]
      simp only [List.find?, hpq] at hfind
      have hqe : q = (k, id, e0) := Option.some_inj.mp hfind
      subst hqe
      refine ⟨[], qs, rfl, ?_, by intro t ht; exact absurd ht (List.not_mem_nil t)⟩
      simp [replaceKey]
    · have hpq : (q.1 == k) = false := by simp [hq]
      simp only [List.find?, hpq] at hfind
      obtain ⟨l₁, l₂, hl, hr, hn⟩ := ih hfind
      refine ⟨q :: l₁, l₂, ?_, ?_, ?_⟩
      · rw [hl]
        rfl
      · show replaceKey (q :: qs) k e = q :: (l₁ ++ (k, id, e) :: l₂)
        simp only [replaceKey]
        rw [if_neg hq, hr]
      · intro t ht
        cases List.mem_cons.mp ht with
        | inl h1 => rw [h1]; exact hq
        | inr h2 => exact hn t h2

/-- With pairwise-distinct keys, `find?` on a member's key returns that
member. -/
theorem find?_first_of_nodup (l : List (Nat × Nat × ObjectEntry))
    (t : Nat × Nat × ObjectEntry) (hk : (l.map (fun x => x.1)).Nodup)
    (ht : t ∈ l) : l.find? (fun x => x.1 == t.1) = some t := by
  induction l with
  | nil => exact absurd ht (List.not_mem_nil t)
  | cons q qs ih =>
    rw [List.map_cons, List.nodup_cons] at hk
    by_cases hq : q.1 = t.1
    · have hqt : q = t := by
        cases List.mem_cons.mp ht with
        | inl h1 => rw [h1]
        | inr h2 =>
          exact absurd (hq ▸ List.mem_map_of_mem (fun x => x.1) h2) hk.1
      have hpq : (q.1 == t.1) = true := by simp [hq]
      show List.find? (fun x => x.1 == t.1) (q :: qs) = some t
      simp only [List.find?, hpq]
      rw [hqt]
    · have htqs : t ∈ qs := by
        cases List.mem_cons.mp ht with
        | inl h1 => exact absurd (by rw [h1]) hq
        | inr h2 => exact h2
      have hpq : (q.1 == t.1) = false := by simp [hq]
      show List.find? (fun x => x.1 == t.1) (q :: qs) = some t
      simp only [List.find?, hpq]
      exact ih hk.2 htqs

/-- With pairwise-distinct keys, `findTriple` on a member's key yields its
node id and entry. -/
theorem findTriple_eq_of_mem_nodup (s : ArchiveState)
    (t : Nat × Nat × ObjectEntry) (hk : (s.objects.map (fun x => x.1)).Nodup)
    (ht : t ∈ s.objects) : findTriple s t.1 = some (t.2.1, t.2.2) := by
  unfold findTriple
  rw [find?_first_of_nodup s.objects t hk ht]
  rfl

/-- In a well-formed archive with no buffered bytes every entry is
non-resident. -/
theorem resident_empty_of_buffer_zero (s : ArchiveState) (hinv : Inv s)
    (hb : s.bufferSize = 0) : ∀ t ∈ s.objects, t.2.2.data = [] := by
  intro t ht
  by_contra hres
  obtain ⟨-, -, -, -, -, hbuf, -, hmeta⟩ := hinv
  have hsz : t.2.2.data.length = t.2.2.size := (hmeta t ht).1 hres
  have hpos : 0 < t.2.2.size := by
    rw [← hsz]
    cases hd : t.2.2.data with
    | nil => exact absurd hd hres
    | cons a as => simp
  have hmem : t.2.2.size ∈ (s.objects.filter (fun x => x.2.2.data ≠ [])).map
      (fun x => x.2.2.size) :=
    List.mem_map_of_mem _ (List.mem_filter.mpr ⟨ht, by simpa using hres⟩)
  have hle : t.2.2.size ≤ residentSum s :=
    List.single_le_sum (fun x _ => Nat.zero_le x) _ hmem
  rw [← hbuf, hb] at hle
  omega

theorem find?_of_findTriple (s : ArchiveState) (k id : Nat) (e0 : ObjectEntry)
    (h : findTriple s k = some (id, e0)) :
    s.objects.find? (fun t => t.1 == k) = some (k, id, e0) := by
  unfold findTriple at h
  cases hf : s.objects.find? (fun t => t.1 == k) with
  | none =>
    rw [hf] at h
    exact Option.noConfusion h
  | some t =>
    rw [hf] at h
    have h2 : t.2 = (id, e0) := Option.some_inj.mp h
    have h1 : t.1 = k := by
      have hp := List.find?_some hf
      simpa using hp
    rw [← h1, ← h2]

theorem resSum_append_cons (A B : List (Nat × Nat × ObjectEntry))
    (x : Nat × Nat × ObjectEntry) :
    (((A ++ x :: B).filter (fun t => t.2.2.data ≠ [])).map (fun t => t.2.2.size)).sum
      = (((A.filter (fun t => t.2.2.data ≠ [])).map (fun t => t.2.2.size)).sum)
        + ((if x.2.2.data = [] then 0 else x.2.2.size)
          + (((B.filter (fun t => t.2.2.data ≠ [])).map (fun t => t.2.2.size)).sum)) := by
  by_cases hx : x.2.2.data = []
  · simp [List.filter_append, List.filter_cons, hx]
  · simp [List.filter_append, List.filter_cons, hx]

/-- Core invariant-preservation step: clearing the resident bytes of one
map node (keeping its id and size), dropping its id from the MRU order,
subtracting its byte count, and possibly growing the file preserves the
invariant as long as the new metadata stays within the new file. -/
theorem inv_writeBack_core (s : ArchiveState) (k id : Nat) (e0 E : ObjectEntry)
    (A B : List (Nat × Nat × ObjectEntry)) (file' : List Nat) (mr' : Bool)
    (hobj : s.objects = A ++ (k, id, e0) :: B)
    (hinv : Inv s) (hres : e0.data ≠ [])
    (hEdata : E.data = []) (hEsize : E.size = e0.size)
    (hEmod : E.modified = false)
    (hfl : s.file.length ≤ file'.length)
    (hEidx : E.indexInFile + E.size ≤ file'.length) :
    Inv { s with objects := A ++ (k, id, E) :: B, file := file', mustRebuild := mr', bufferSize := sub64 s.bufferSize e0.size, lru := s.lru.filter (fun x => x ≠ id) } := by
  obtain ⟨hk, hi, hlnd, hlru1, hlru2, hbuf, hW, hmeta⟩ := hinv
  have hi₂ := hi
  rw [hobj, List.map_append, List.map_cons, List.nodup_append] at hi₂
  have hiA : ∀ t ∈ A, t.2.1 ≠ id := by
    intro t h htid
    have hnotin := hi₂.2.2 (List.mem_map_of_mem (fun x => x.2.1) h)
    exact hnotin (by rw [htid]; exact List.mem_cons_self _ _)
  have hiB : ∀ t ∈ B, t.2.1 ≠ id := by
    intro t h htid
    have h2 := (List.nodup_cons.mp hi₂.2.1).1
    exact h2 (by rw [← htid]; exact List.mem_map_of_mem (fun x => x.2.1) h)
  have hmid0 : (if (k, id, e0).2.2.data = [] then 0 else (k, id, e0).2.2.size)
      = e0.size := by simp [hres]
  have hsum : residentSum s
      = (((A.filter (fun t => t.2.2.data ≠ [])).map (fun t => t.2.2.size)).sum)
        + (e0.size
          + (((B.filter (fun t => t.2.2.data ≠ [])).map (fun t => t.2.2.size)).sum)) := by
    unfold residentSum
    rw [hobj, resSum_append_cons, hmid0]
  have hmidE : (if (k, id, E).2.2.data = [] then 0 else (k, id, E).2.2.size)
      = 0 := by simp [hEdata]
  refine ⟨?_, ?_, ?_, ?_, ?_, ?_, ?_, ?_⟩
  · show ((A ++ (k, id, E) :: B).map (fun t => t.1)).Nodup
    have heq : (A ++ (k, id, E) :: B).map (fun t => t.1)
        = s.objects.map (fun t => t.1) := by
      rw [hobj]
      simp
    rw [heq]
    exact hk
  · show ((A ++ (k, id, E) :: B).map (fun t => t.2.1)).Nodup
    have heq : (A ++ (k, id, E) :: B).map (fun t => t.2.1)
        = s.objects.map (fun t => t.2.1) := by
      rw [hobj]
      simp
    rw [heq]
    exact hi
  · show (s.lru.filter (fun x => x ≠ id)).Nodup
    exact hlnd.filter _
  · show ∀ i ∈ s.lru.filter (fun x => x ≠ id),
        ∃ t ∈ A ++ (k, id, E) :: B, t.2.1 = i ∧ t.2.2.data ≠ []
    intro i hif
    have hmemf := List.mem_filter.mp hif
    have hne : i ≠ id := by simpa using hmemf.2
    obtain ⟨t, htmem, htid, htres⟩ := hlru1 i hmemf.1
    rw [hobj] at htmem
    rcases List.mem_append.mp htmem with hA | hmid
    · exact ⟨t, List.mem_append_left _ hA, htid, htres⟩
    · rcases List.mem_cons.mp hmid with hEq | hB
      · exfalso
        apply hne
        rw [← htid, hEq]
    
      · exact ⟨t, List.mem_append_right _ (List.mem_cons_of_mem _ hB), htid, htres⟩
  · show ∀ t ∈ A ++ (k, id, E) :: B, t.2.2.data ≠ []
        → t.2.1 ∈ s.lru.filter (fun x => x ≠ id)
    intro t ht htres
    rcases List.mem_append.mp ht with hA | hmid
    · have hin := hlru2 t (by rw [hobj]; exact List.mem_append_left _ hA) htres
      exact List.mem_filter.mpr ⟨hin, by simp [hiA t hA]⟩
    · rcases List.mem_cons.mp hmid with hEq | hB
      · rw [hEq] at htres
        exact absurd hEdata htres
      · have hin := hlru2 t
          (by rw [hobj]; exact List.mem_append_right _ (List.mem_cons_of_mem _ hB)) htres
        exact List.mem_filter.mpr ⟨hin, by simp [hiB t hB]⟩
  · show sub64 s.bufferSize e0.size
        = (((A ++ (k, id, E) :: B).filter (fun t => t.2.2.data ≠ [])).map
            (fun t => t.2.2.size)).sum
    rw [resSum_append_cons, hmidE, hbuf]
    have hle : e0.size ≤ residentSum s := by
      rw [hsum]
      omega
    rw [sub64_of_le _ _ hle hW, hsum]
    omega
  · show (((A ++ (k, id, E) :: B).filter (fun t => t.2.2.data ≠ [])).map
        (fun t => t.2.2.size)).sum < W
    rw [resSum_append_cons, hmidE]
    omega
  · show ∀ t ∈ A ++ (k, id, E) :: B,
        (t.2.2.data ≠ [] → t.2.2.data.length = t.2.2.size) ∧
        (t.2.2.modified = true → t.2.2.data.length = t.2.2.size) ∧
        (t.2.2.modified = false → t.2.2.indexInFile + t.2.2.size ≤ file'.length)
    intro t ht
    rcases List.mem_append.mp ht with hA | hmid
    · have old := hmeta t (by rw [hobj]; exact List.mem_append_left _ hA)
      exact ⟨old.1, old.2.1, fun hmf => le_trans (old.2.2 hmf) hfl⟩
    · rcases List.mem_cons.mp hmid with hEq | hB
      · rw [hEq]
        refine ⟨?_, ?_, ?_⟩
        · intro hc
          exact absurd hEdata hc
        · intro hcm
          rw [hEmod] at hcm
          exact Bool.noConfusion hcm
        · intro _
          exact hEidx
      · have old := hmeta t
          (by rw [hobj]; exact List.mem_append_right _ (List.mem_cons_of_mem _ hB))
        exact ⟨old.1, old.2.1, fun hmf => le_trans (old.2.2 hmf) hfl⟩

/-- `write_back` of a key holding a resident entry preserves the archive
invariant, removes that node id from the MRU order, and keeps every
node's key, id and declared size. -/
theorem writeBack_inv_resident (s : ArchiveState) (k id : Nat) (e0 : ObjectEntry)
    (hinv : Inv s) (hfind : findTriple s k = some (id, e0)) (hres : e0.data ≠ []) :
    Inv (writeBackUpd s k) ∧
    (writeBackUpd s k).lru = s.lru.filter (fun x => x ≠ id) ∧
    (writeBackUpd s k).objects.map (fun t => (t.1, t.2.1, t.2.2.size))
      = s.objects.map (fun t => (t.1, t.2.1, t.2.2.size)) ∧
    (writeBackUpd s k).temporary = s.temporary ∧
    (writeBackUpd s k).maxBufferSize = s.maxBufferSize ∧
    (s.mustRebuild = true → (writeBackUpd s k).mustRebuild = true) := by
  have hfq := find?_of_findTriple s k id e0 hfind
  have hlen0 : e0.data.length = e0.size := (hinv.2.2.2.2.2.2.2 _
    (List.mem_of_find?_eq_some hfq)).1 hres
  cases hm : e0.modified with
  | true =>
    obtain ⟨A, B, hobj, hrepl, hAk⟩ :=
      replaceKey_split s.objects k ⟨[], s.file.length, e0.size, false⟩ id e0 hfq
    have hredu : writeBackUpd s k = { s with objects := A ++ (k, id, (⟨[], s.file.length, e0.size, false⟩ : ObjectEntry)) :: B, file := s.file ++ e0.data, mustRebuild := true, bufferSize := sub64 s.bufferSize e0.size, lru := s.lru.filter (fun x => x ≠ id) } := by
      simp only [writeBackUpd, hfind, hm, eq_self_iff_true, if_true]
      rw [hrepl]
    rw [hredu]
    refine ⟨?_, rfl, ?_, rfl, rfl, fun _ => rfl⟩
    · refine inv_writeBack_core s k id e0 _ A B _ _ hobj hinv hres rfl rfl rfl ?_ ?_
      · simp
      · show s.file.length + e0.size ≤ (s.file ++ e0.data).length
        simp [hlen0]
    · rw [hobj]
      simp
  | false =>
    obtain ⟨A, B, hobj, hrepl, hAk⟩ :=
      replaceKey_split s.objects k ⟨[], e0.indexInFile, e0.size, false⟩ id e0 hfq
    have hredu : writeBackUpd s k = { s with objects := A ++ (k, id, (⟨[], e0.indexInFile, e0.size, false⟩ : ObjectEntry)) :: B, file := s.file, mustRebuild := s.mustRebuild, bufferSize := sub64 s.bufferSize e0.size, lru := s.lru.filter (fun x => x ≠ id) } := by
      simp only [writeBackUpd, hfind, hm, Bool.false_eq_true, if_false]
      rw [hrepl]
    rw [hredu]
    refine ⟨?_, rfl, ?_, rfl, rfl, fun h => h⟩
    · refine inv_writeBack_core s k id e0 _ A B _ _ hobj hinv hres rfl rfl rfl
        (le_refl _) ?_
      show e0.indexInFile + e0.size ≤ s.file.length
      exact (hinv.2.2.2.2.2.2.2 _ (List.mem_of_find?_eq_some hfq)).2.2 hm
    · rw [hobj]
      simp

/-- From any well-formed state, the eviction loop with desired size `0`
terminates within the structural fuel bound and empties the buffer,
preserving the invariant, every node's key, id and declared size, and the
archive configuration. -/
theorem unload_zero_of_inv : ∀ fuel (s : ArchiveState), Inv s → s.lru.length < fuel →
    ∃ s₁, unloadAux fuel s 0 = some s₁ ∧ Inv s₁ ∧ s₁.bufferSize = 0 ∧
      s₁.objects.map (fun t => (t.1, t.2.1, t.2.2.size))
        = s.objects.map (fun t => (t.1, t.2.1, t.2.2.size)) ∧
      s₁.temporary = s.temporary ∧
      s₁.maxBufferSize = s.maxBufferSize ∧
      (s.mustRebuild = true → s₁.mustRebuild = true) ∧
      (∀ t ∈ s₁.objects, t.2.2.data = []) := by
  intro fuel
  induction fuel with
  | zero =>
    intro s _ hlen
    exact absurd hlen (Nat.not_lt_zero _)
  | succ n ih =>
    intro s hinv hlen
    have hcl := hinv
    obtain ⟨hk, hi, hlnd, hlru1, hlru2, hbuf, hW, hmeta⟩ := hcl
    by_cases hb : s.bufferSize ≤ 0
    · have hb0 : s.bufferSize = 0 := Nat.le_zero.mp hb
      exact ⟨s, unloadAux_done n s 0 hb, hinv, hb0, rfl, rfl, rfl, fun h => h,
        resident_empty_of_buffer_zero s hinv hb0⟩
    · have hbpos : s.bufferSize ≠ 0 := by
        intro h
        exact hb (by omega)
      have hlru_ne : s.lru ≠ [] := by
        intro hnil
        apply hbpos
        have hfilter : s.objects.filter (fun t => t.2.2.data ≠ []) = [] := by
          rw [List.filter_eq_nil_iff]
          intro t ht hresb
          have hresp : t.2.2.data ≠ [] := by simpa using hresb
          have hmem := hlru2 t ht hresp
          rw [hnil] at hmem
          exact absurd hmem (List.not_mem_nil _)
        rw [hbuf]
        unfold residentSum
        rw [hfilter]
        rfl
      cases hl : s.lru.getLast? with
      | none => exact absurd (List.getLast?_eq_none_iff.mp hl) hlru_ne
      | some idl =>
        have hidl_mem : idl ∈ s.lru := mem_of_getLast?Eq s.lru idl hl
        obtain ⟨t0, ht0mem, ht0id, ht0res⟩ := hlru1 idl hidl_mem
        cases hfind : s.objects.find? (fun t => t.2.1 == idl) with
        | none =>
          have hnone := List.find?_eq_none.mp hfind t0 ht0mem
          simp [ht0id] at hnone
        | some t1 =>
          have ht1mem := List.mem_of_find?_eq_some hfind
          have ht1id : t1.2.1 = idl := by simpa using List.find?_some hfind
          have ht1t0 : t1 = t0 :=
            List.inj_on_of_nodup_map hi ht1mem ht0mem (by rw [ht1id, ht0id])
          have ht1res : t1.2.2.data ≠ [] := by rw [ht1t0]; exact ht0res
          have hft : findTriple s t1.1 = some (t1.2.1, t1.2.2) :=
            findTriple_eq_of_mem_nodup s t1 hk ht1mem
          obtain ⟨hinv2, hlru2eq, hshape2, htemp2, hmax2, hmr2⟩ :=
            writeBack_inv_resident s t1.1 t1.2.1 t1.2.2 hinv hft ht1res
          have hdec : (writeBackUpd s t1.1).lru.length < s.lru.length := by
            rw [hlru2eq]
            refine List.length_filter_lt_length_iff_exists.mpr ⟨idl, hidl_mem, ?_⟩
            simp [ht1id]
          have hlen2 : (writeBackUpd s t1.1).lru.length < n := by omega
          obtain ⟨s₁, hrun, hinv₁, hb₁, hshape₁, htemp₁, hmax₁, hmr₁, hempty₁⟩ :=
            ih (writeBackUpd s t1.1) hinv2 hlen2
          refine ⟨s₁, ?_, hinv₁, hb₁, by rw [hshape₁, hshape2],
            by rw [htemp₁, htemp2], by rw [hmax₁, hmax2],
            fun h => hmr₁ (hmr2 h), hempty₁⟩
          rw [unloadAux, if_neg hb, hl]
          dsimp only
          rw [hfind]
          dsimp only
          exact hrun

end OA

namespace OA

/-- C5: for every well-formed archive whose file needs rebuilding, the
rebuild of `internal_flush` completes and writes a backing file that is
exactly a u64 entry count followed by one `{u64 key_len, u64 data_len,
key bytes, data bytes}` record per map node — one record per key (keys
unique, in node order), each record's payload as long as its declared
size, and every faithfully held payload written out verbatim. -/
theorem c5_rebuild_file_format (s : ArchiveState) (hinv : Inv s)
    (hrb : s.mustRebuild = true) :
    ∃ s' recs, internalFlushOp s = some s' ∧
      s'.file = fileEncode recs ∧
      recs.length = s.objects.length ∧
      recs.map (fun r => r.1) = s.objects.map (fun t => t.1) ∧
      (recs.map (fun r => r.1)).Nodup ∧
      (∀ r ∈ recs, r.2.2.length = r.2.1) ∧
      (∀ k v, GoodAt s k v → (k, v.length, v) ∈ recs) := by
  obtain ⟨s₁, hrun, hinv₁, hb₁, hshape₁, htemp₁, hmax₁, hmr₁, hempty₁⟩ :=
    unload_zero_of_inv (s.lru.length + 1) s hinv (Nat.lt_succ_self _)
  have hmr : s₁.mustRebuild = true := hmr₁ hrb
  have hflush : internalFlushOp s = some { { s₁ with mustRebuild := false } with file := fileEncode (recordsOf { s₁ with mustRebuild := false }) } := by
    unfold internalFlushOp
    rw [show unload s 0 = some s₁ from hrun]
    simp [hmr]
  refine ⟨_, recordsOf s₁, hflush, rfl, ?_, ?_, ?_, ?_, ?_⟩
  · have hlen : s₁.objects.length = s.objects.length := by
      have hmap := congrArg List.length hshape₁
      simpa using hmap
    show (recordsOf s₁).length = s.objects.length
    unfold recordsOf
    rw [List.length_map, hlen]
  · have hkeys₁ : s₁.objects.map (fun t => t.1) = s.objects.map (fun t => t.1) := by
      have h2 := congrArg (List.map (fun p : Nat × Nat × Nat => p.1)) hshape₁
      simpa [List.map_map] using h2
    have hrecskeys : (recordsOf s₁).map (fun r => r.1)
        = s₁.objects.map (fun t => t.1) := by
      unfold recordsOf
      rw [List.map_map]
      rfl
    exact hrecskeys.trans hkeys₁
  · have hkeys₁ : s₁.objects.map (fun t => t.1) = s.objects.map (fun t => t.1) := by
      have h2 := congrArg (List.map (fun p : Nat × Nat × Nat => p.1)) hshape₁
      simpa [List.map_map] using h2
    have hrecskeys : (recordsOf s₁).map (fun r => r.1)
        = s₁.objects.map (fun t => t.1) := by
      unfold recordsOf
      rw [List.map_map]
      rfl
    rw [hrecskeys.trans hkeys₁]
    exact hinv.1
  · intro r hr
    unfold recordsOf at hr
    obtain ⟨t, htmem, hteq⟩ := List.mem_map.mp hr
    rw [← hteq]
    have hdata := hempty₁ t htmem
    have hm8 := hinv₁.2.2.2.2.2.2.2 t htmem
    cases hmod : t.2.2.modified with
    | true =>
      have hsz0 : t.2.2.size = 0 := by
        have hx := hm8.2.1 hmod
        rw [hdata] at hx
        simpa using hx.symm
      show (slice s₁.file t.2.2.indexInFile t.2.2.size).length = t.2.2.size
      rw [hsz0, slice_zero]
      rfl
    | false =>
      exact slice_length_of_le _ _ _ (hm8.2.2 hmod)
  · intro k v hg
    have hg₁ : GoodAt s₁ k v :=
      unloadAux_preserve (fun st => GoodAt st k v)
        (fun st kp hh => writeBack_goodAt st k kp v hh) _ _ _ _ hrun hg
    obtain ⟨id, e, hkt, hesz, hmT, hmF, hd⟩ := hg₁
    have hmemk : (k, id, e) ∈ keyTriples s₁ k := by
      rw [hkt]
      exact List.mem_singleton_self _
    have hmem : (k, id, e) ∈ s₁.objects := List.mem_of_mem_filter hmemk
    have hdata : e.data = [] := hempty₁ _ hmem
    have hslice : slice s₁.file e.indexInFile e.size = v := by
      by_cases hv : v = []
      · subst hv
        rw [hesz]
        exact slice_zero _ _
      · have hmf : e.modified = false := by
          cases hmod : e.modified with
          | false => rfl
          | true =>
            have hdv := hmT hmod
            rw [hdata] at hdv
            exact absurd hdv.symm hv
        exact (hmF hmf).1
    unfold recordsOf
    refine List.mem_map.mpr ⟨(k, id, e), hmem, ?_⟩
    show (k, e.size, slice s₁.file e.indexInFile e.size) = (k, v.length, v)
    rw [hslice, hesz]

theorem c5_rebuild_file_format_witness :
    Inv c5WitState ∧ c5WitState.mustRebuild = true ∧
    (∃ s' recs, internalFlushOp c5WitState = some s' ∧
      s'.file = fileEncode recs ∧
      recs.length = c5WitState.objects.length ∧
      recs.map (fun r => r.1) = c5WitState.objects.map (fun t => t.1) ∧
      (recs.map (fun r => r.1)).Nodup ∧
      (∀ r ∈ recs, r.2.2.length = r.2.1) ∧
      (∀ k v, GoodAt c5WitState k v → (k, v.length, v) ∈ recs)) ∧
    internalFlushOp c5WitState = some c5WitFlushed ∧
    c5WitFlushed.file = fileEncode [(0, 3, [51, 51, 51])] :=
  ⟨by decide, by rfl, c5_rebuild_file_format c5WitState (by decide) (by rfl),
    rfl, rfl⟩

/-- C9: flushing a well-formed temporary archive completes, deletes the
backing data and reinitializes the archive empty over a fresh
zero-entry-count file: afterwards every key is unavailable, every load
returns `0` leaving its argument untouched, and the archive is no longer
temporary. -/
theorem c9_flush_temporary_resets (s : ArchiveState) (hinv : Inv s)
    (ht : s.temporary = true) :
    ∃ s', flushOp s = some s' ∧ s'.objects = [] ∧ s'.lru = [] ∧
      s'.temporary = false ∧ s'.file = u64le 0 ∧ s'.bufferSize = 0 ∧
      (∀ k, isAvailable s' k = false) ∧
      (∀ k d keep, loadRawOp s' k d keep = some (0, d, s')) := by
  obtain ⟨s₁, hrun, hinv₁, hb₁, hshape₁, htemp₁, hmax₁, hmr₁, hempty₁⟩ :=
    unload_zero_of_inv (s.lru.length + 1) s hinv (Nat.lt_succ_self _)
  have hIF : ∃ s₂, internalFlushOp s = some s₂ ∧ s₂.temporary = true ∧
      s₂.bufferSize = 0 ∧ s₂.mustRebuild = false := by
    cases hmrb : s₁.mustRebuild with
    | false =>
      refine ⟨s₁, ?_, htemp₁.trans ht, hb₁, hmrb⟩
      unfold internalFlushOp
      rw [show unload s 0 = some s₁ from hrun]
      simp [hmrb]
    | true =>
      refine ⟨{ { s₁ with mustRebuild := false } with file := fileEncode (recordsOf { s₁ with mustRebuild := false }) }, ?_, htemp₁.trans ht, hb₁, rfl⟩
      unfold internalFlushOp
      rw [show unload s 0 = some s₁ from hrun]
      simp [hmrb]
  obtain ⟨s₂, hIFeq, htemp₂, hb₂, hmrb₂⟩ := hIF
  have hIF₂ : internalFlushOp s₂ = some s₂ := by
    unfold internalFlushOp unload
    rw [unloadAux_done _ _ _ (by omega)]
    simp [hmrb₂]
  have hflush : flushOp s = some { objects := [], lru := [], mustRebuild := s₂.mustRebuild, maxBufferSize := s₂.maxBufferSize, bufferSize := 0, file := u64le 0, temporary := false, nextId := s₂.nextId } := by
    unfold flushOp initOp
    rw [hIFeq]
    simp only [Option.bind_eq_bind, Option.some_bind]
    rw [hIF₂]
    simp only [Option.bind_eq_bind, Option.some_bind]
    rw [htemp₂]
    rfl
  exact ⟨_, hflush, rfl, rfl, rfl, rfl, rfl, fun k => rfl, fun k d keep => rfl⟩

theorem c9_flush_temporary_resets_witness :
    Inv c9WitState ∧ c9WitState.temporary = true ∧
    isAvailable c9WitState 3 = true ∧
    (∃ s', flushOp c9WitState = some s' ∧ s'.objects = [] ∧ s'.lru = [] ∧
      s'.temporary = false ∧ s'.file = u64le 0 ∧ s'.bufferSize = 0 ∧
      (∀ k, isAvailable s' k = false) ∧
      (∀ k d keep, loadRawOp s' k d keep = some (0, d, s'))) :=
  ⟨by decide, by rfl, by rfl,
    c9_flush_temporary_resets c9WitState (by decide) (by rfl)⟩

end OA
